import Mathlib

/-!
Verification development for the trim orchestration engine
(src/main/services/ffmpegService.ts): filesystem model, path utilities,
the trim executor / strategy selector / overwrite coordinator, the
timestamp and progress parsing helpers, and the probe-output parser.

Machine integers and floating point numbers are modelled by `Nat` / `ℚ`;
the filesystem is an association list from path strings to file contents
(contents abstracted as `Nat`); the external ffmpeg process is an oracle
(`ExecOutcome`) describing exit code, diagnostic chunks and the content it
left at the output path; fallible filesystem operations take explicit
fault flags so that rename/delete failures can be analysed.
-/

namespace Trim

/- The Mathlib rational operations are `@[irreducible]`; restore
default reducibility locally so that concrete runs of the model evaluate
inside `decide`/`rfl` proofs. -/
attribute [local semireducible] Rat.mul Rat.inv Rat.add Rat.sub

/-! ## Filesystem model -/

/-- A filesystem: an association list from absolute path strings to file
contents (abstracted as `Nat`).  Earlier entries shadow later ones. -/
abbrev FS := List (String × Nat)

/-- Content of the file at `p`, if any (models reading / existsSync). -/
def readF (fs : FS) (p : String) : Option Nat := fs.lookup p

/-- Models `existsSync`. -/
def existsF (fs : FS) (p : String) : Bool := (readF fs p).isSome

/-- Remove any file at `p` (models `rm` with `force: true`). -/
def removeF (fs : FS) (p : String) : FS := fs.filter (fun e => !(e.1 == p))

/-- Create/overwrite the file at `p` with content `v`. -/
def writeF (fs : FS) (p : String) (v : Nat) : FS := (p, v) :: removeF fs p

theorem readF_removeF (fs : FS) (p q : String) :
    readF (removeF fs p) q = if q = p then none else readF fs q := by
  induction fs with
  | nil => simp [readF, removeF]
  | cons e t ih =>
    obtain ⟨k, v⟩ := e
    by_cases hkp : k = p
    · have hhead : (!((k, v).1 == p)) = false := by simp [hkp]
      by_cases hqp : q = p
      · simpa [readF, removeF, List.filter_cons, hhead, hqp] using ih
      · have hqk : (q == k) = false := by
          subst hkp; simp [hqp]
        simp only [readF, removeF, List.filter_cons, hhead, if_neg hqp,
          Bool.false_eq_true, List.lookup, hqk] at *
        simpa [hqp] using ih
    · have hhead : (!((k, v).1 == p)) = true := by simp [hkp]
      by_cases hqk : q = k
      · have hqp : q ≠ p := by rw [hqk]; exact hkp
        have hb : (q == k) = true := by simp [hqk]
        simp [readF, removeF, List.filter_cons, hhead, List.lookup, hb, hqp]
      · have hb : (q == k) = false := by simp [hqk]
        by_cases hqp : q = p <;>
          · simp only [readF, removeF, List.filter_cons, hhead, if_pos,
              List.lookup, hb] at *
            simpa [hqp] using ih

theorem readF_writeF (fs : FS) (p q : String) (v : Nat) :
    readF (writeF fs p v) q = if q = p then some v else readF fs q := by
  by_cases h : q = p
  · simp [writeF, readF, List.lookup, h]
  · have hqp : (q == p) = false := by simp [h]
    simp only [writeF, readF, List.lookup, hqp, if_neg h]
    simpa [readF, h] using readF_removeF fs p q

theorem readF_writeF_same (fs : FS) (p : String) (v : Nat) :
    readF (writeF fs p v) p = some v := by simp [readF_writeF]

theorem readF_writeF_other (fs : FS) (p q : String) (v : Nat) (h : q ≠ p) :
    readF (writeF fs p v) q = readF fs q := by simp [readF_writeF, h]

theorem readF_removeF_same (fs : FS) (p : String) :
    readF (removeF fs p) p = none := by simp [readF_removeF]

theorem readF_removeF_other (fs : FS) (p q : String) (h : q ≠ p) :
    readF (removeF fs p) q = readF fs q := by simp [readF_removeF, h]

/-- A present key is among the keys of the association list. -/
theorem mem_keys_of_existsF (fs : FS) (p : String) (h : existsF fs p = true) :
    p ∈ fs.map Prod.fst := by
  induction fs with
  | nil => simp [existsF, readF] at h
  | cons e t ih =>
    simp only [existsF, readF, List.lookup] at h
    by_cases h1 : p = e.1
    · simp only [List.map_cons, List.mem_cons]
      exact Or.inl h1
    · have hqe : (p == e.1) = false := by simp [h1]
      rw [hqe] at h
      simp only [List.map_cons, List.mem_cons]
      exact Or.inr (ih h)

/-! ## Decimal rendering of numbers

Models the JavaScript number-to-string conversion used by template
interpolation (a nonnegative integer renders as its decimal digits). -/

/-- Decimal digits, most significant first; structural recursion on a
fuel bound (`decDigits` below supplies a sufficient bound). -/
def decDigitsAux : Nat → Nat → List Nat
  | 0, n => [n]
  | Nat.succ fuel, n =>
    if n < 10 then [n] else decDigitsAux fuel (n / 10) ++ [n % 10]

/-- Decimal digits of `n`, most significant first. -/
def decDigits (n : Nat) : List Nat := decDigitsAux n n

theorem decDigitsAux_irrel (f1 : Nat) : ∀ f2 n, n ≤ f1 → n ≤ f2 →
    decDigitsAux f1 n = decDigitsAux f2 n := by
  induction f1 with
  | zero =>
    intro f2 n h1 _
    have : n = 0 := by omega
    subst this
    cases f2 with
    | zero => rfl
    | succ f2 => simp [decDigitsAux]
  | succ f1 ih =>
    intro f2 n h1 h2
    cases f2 with
    | zero =>
      have : n = 0 := by omega
      subst this
      simp [decDigitsAux]
    | succ f2 =>
      simp only [decDigitsAux]
      by_cases hn : n < 10
      · rw [if_pos hn, if_pos hn]
      · rw [if_neg hn, if_neg hn]
        have hlt : n / 10 < n := Nat.div_lt_self (by omega) (by omega)
        rw [ih f2 (n / 10) (by omega) (by omega)]

/-- The defining equation of the digit expansion. -/
theorem decDigits_eq (n : Nat) :
    decDigits n = if n < 10 then [n]
      else decDigits (n / 10) ++ [n % 10] := by
  unfold decDigits
  cases hn : n with
  | zero => simp [decDigitsAux]
  | succ m =>
    simp only [decDigitsAux]
    by_cases h : m + 1 < 10
    · rw [if_pos h, if_pos h]
    · rw [if_neg h, if_neg h]
      have hlt : (m + 1) / 10 < m + 1 := Nat.div_lt_self (by omega) (by omega)
      rw [decDigitsAux_irrel m ((m + 1) / 10) ((m + 1) / 10) (by omega)
        (le_refl _)]

/-- The character for a single decimal digit. -/
def digitCh (d : Nat) : Char := Char.ofNat (48 + d)

/-- Decimal rendering of a natural number (models the JS `${n}` /
`String(n)` conversion for nonnegative integers). -/
def natToDec (n : Nat) : String := ((decDigits n).map digitCh).asString

/-- Value of a digit list, most significant first. -/
def valOfDigits (l : List Nat) : Nat := l.foldl (fun a d => 10 * a + d) 0

theorem foldl_digits_append (l : List Nat) (x a : Nat) :
    (l ++ [x]).foldl (fun a d => 10 * a + d) a =
      10 * l.foldl (fun a d => 10 * a + d) a + x := by
  simp [List.foldl_append]

theorem valOfDigits_decDigits (n : Nat) : valOfDigits (decDigits n) = n := by
  induction n using Nat.strong_induction_on with
  | _ n ih =>
    rw [decDigits_eq]
    by_cases h : n < 10
    · simp [h, valOfDigits]
    · rw [if_neg h]
      have hd : n / 10 < n := Nat.div_lt_self (by omega) (by omega)
      unfold valOfDigits
      rw [foldl_digits_append]
      have := ih (n / 10) hd
      unfold valOfDigits at this
      rw [this]
      omega

theorem decDigits_lt_ten (n : Nat) : ∀ d ∈ decDigits n, d < 10 := by
  induction n using Nat.strong_induction_on with
  | _ n ih =>
    rw [decDigits_eq]
    by_cases h : n < 10
    · simp [h]
    · rw [if_neg h]
      intro d hd
      rcases List.mem_append.mp hd with h1 | h1
      · exact ih (n / 10) (Nat.div_lt_self (by omega) (by omega)) d h1
      · simp at h1; omega

theorem digitCh_inj (a b : Nat) (ha : a < 10) (hb : b < 10)
    (h : digitCh a = digitCh b) : a = b := by
  revert h
  interval_cases a <;> interval_cases b <;> decide

theorem map_digitCh_inj (l1 l2 : List Nat) (h1 : ∀ d ∈ l1, d < 10)
    (h2 : ∀ d ∈ l2, d < 10) (h : l1.map digitCh = l2.map digitCh) :
    l1 = l2 := by
  induction l1 generalizing l2 with
  | nil => cases l2 <;> simp_all
  | cons a t ih =>
    cases l2 with
    | nil => simp_all
    | cons b t2 =>
      simp only [List.map_cons, List.cons.injEq] at h
      have ha := h1 a (by simp)
      have hb := h2 b (by simp)
      have hab : a = b := digitCh_inj a b ha hb h.1
      subst hab
      have ht : t = t2 :=
        ih t2 (fun d hd => h1 d (List.mem_cons_of_mem a hd))
          (fun d hd => h2 d (List.mem_cons_of_mem a hd)) h.2
      rw [ht]

theorem natToDec_inj (m n : Nat) (h : natToDec m = natToDec n) : m = n := by
  unfold natToDec at h
  have hl : (decDigits m).map digitCh = (decDigits n).map digitCh := by
    have := congrArg String.data h
    simpa [List.asString] using this
  have := map_digitCh_inj _ _ (decDigits_lt_ten m) (decDigits_lt_ten n) hl
  calc m = valOfDigits (decDigits m) := (valOfDigits_decDigits m).symm
    _ = valOfDigits (decDigits n) := by rw [this]
    _ = n := valOfDigits_decDigits n

/-! ## Path model

Models the Node `path` module (`path.parse`, `path.join`, `path.extname`)
for forward-slash separated paths, the only part of its behaviour the
engine relies on: the base name is everything after the last separator,
the extension starts at the last dot of the base name unless that dot is
its first character, and joining appends `dir ++ "/" ++ base`. -/

/-- Base name: the part of the path after the last separator. -/
def pathBase (p : String) : String :=
  ((p.data.reverse.takeWhile (fun c => c ≠ '/')).reverse).asString

/-- Directory part: everything before the last separator (empty when the
path has no separator, matching `path.parse("a.mp4").dir = ""`). -/
def pathDir (p : String) : String :=
  (p.data.take (p.data.length - (pathBase p).data.length - 1)).asString

/-- Extension of a base name: from its last dot, unless that dot is the
first character or there is no dot. -/
def extSplit (base : List Char) : List Char :=
  match base with
  | [] => []
  | _ :: rest =>
    let tail := rest.reverse.takeWhile (fun c => c ≠ '.')
    if tail.length = rest.length then [] else '.' :: tail.reverse

/-- Models `path.extname`. -/
def extname (p : String) : String := (extSplit (pathBase p).data).asString

/-- Name part of `path.parse`: base name without the extension. -/
def pathName (p : String) : String :=
  let base := pathBase p
  (base.data.take (base.data.length - (extname p).data.length)).asString

/-- Models `path.join(dir, base)` for the shapes produced by
`path.parse` (a dir without trailing separator, or empty). -/
def pathJoin (dir base : String) : String :=
  if dir = "" then base else dir ++ "/" ++ base

/-- The supported input extensions (`SUPPORTED_EXTENSIONS`). -/
def supportedExtensions : List String :=
  [".mp4", ".mov", ".mkv", ".webm", ".avi", ".m4v"]

/-- Models the JS `toLowerCase` on the ASCII strings the engine compares. -/
def toLowerStr (s : String) : String := (s.data.map Char.toLower).asString

/-- Models `isSupportedVideo`. -/
def isSupportedVideo (filePath : String) : Bool :=
  supportedExtensions.contains (toLowerStr (extname filePath))

/-- Models `makeOverwriteTempPath`: inserts `.trim-<jobId>` between the
name and the extension. -/
def makeOverwriteTempPath (inputPath jobId : String) : String :=
  pathJoin (pathDir inputPath)
    (pathName inputPath ++ ".trim-" ++ jobId ++ extname inputPath)

/-! ## Collision-avoiding output paths (`findAvailableOutputPath`) -/

/-- The candidate with numeric suffix `i` derived from `initialPath`. -/
def numberedCandidate (initialPath : String) (i : Nat) : String :=
  pathJoin (pathDir initialPath)
    (pathName initialPath ++ "_" ++ natToDec i ++ extname initialPath)

/-- The `i`-th path probed by the `findAvailableOutputPath` loop:
the initial path itself, then `name_1`, `name_2`, ... -/
def candidateAt (initialPath : String) : Nat → String
  | 0 => initialPath
  | Nat.succ i => numberedCandidate initialPath (i + 1)

/-- Fuel-bounded search for the first free candidate, starting at
index `i`; the fuel chosen in `findAvailableOutputPath` is proved
sufficient below, so this computes exactly what the source's
`while (existsSync(candidate))` loop computes. -/
def searchFree (fs : FS) (p : String) : Nat → Nat → String
  | i, 0 => candidateAt p i
  | i, Nat.succ fuel =>
    if existsF fs (candidateAt p i) then searchFree fs p (i + 1) fuel
    else candidateAt p i

/-- Models `findAvailableOutputPath`: appends an incrementing numeric
suffix until a non-existing path is found. -/
def findAvailableOutputPath (fs : FS) (initialPath : String) : String :=
  searchFree fs initialPath 0 (fs.length + 2)

theorem string_append_cancel (a b s t : String)
    (h : a ++ s ++ b = a ++ t ++ b) : s = t := by
  have hd : a.data ++ s.data ++ b.data = a.data ++ t.data ++ b.data := by
    have := congrArg String.data h
    simpa [String.data_append] using this
  have h1 : s.data ++ b.data = t.data ++ b.data := by
    rw [List.append_assoc, List.append_assoc] at hd
    exact List.append_cancel_left hd
  have h2 : s.data = t.data := List.append_cancel_right h1
  cases s; cases t; exact congrArg String.mk h2

theorem pathJoin_cancel (d a b : String) (h : pathJoin d a = pathJoin d b) :
    a = b := by
  unfold pathJoin at h
  by_cases hd : d = ""
  · simpa [hd] using h
  · simp only [hd, if_neg, if_false] at h
    have : (d ++ "/") ++ a ++ "" = (d ++ "/") ++ b ++ "" := by
      simpa [String.append_assoc] using h
    exact string_append_cancel _ _ _ _ this

theorem numberedCandidate_inj (p : String) (i j : Nat)
    (h : numberedCandidate p i = numberedCandidate p j) : i = j := by
  unfold numberedCandidate at h
  have h1 := pathJoin_cancel _ _ _ h
  have h2 : (pathName p ++ "_") ++ natToDec i ++ extname p =
      (pathName p ++ "_") ++ natToDec j ++ extname p := by
    simpa [String.append_assoc] using h1
  exact natToDec_inj _ _ (string_append_cancel _ _ _ _ h2)

theorem candidateAt_inj_pos (p : String) (i j : Nat)
    (h : candidateAt p (i + 1) = candidateAt p (j + 1)) : i = j := by
  simp only [candidateAt] at h
  have := numberedCandidate_inj p (i + 1) (j + 1) h
  omega

/-- Pigeonhole: among the candidates with suffixes `1 .. fs.length + 1`,
at least one is free. -/
theorem exists_free_candidate (fs : FS) (p : String) :
    ∃ j, 1 ≤ j ∧ j ≤ fs.length + 1 ∧
      existsF fs (candidateAt p j) = false := by
  by_contra hcon
  push_neg at hcon
  have hall : ∀ k, k < fs.length + 1 →
      existsF fs (candidateAt p (k + 1)) = true := by
    intro k hk
    have := hcon (k + 1) (by omega) (by omega)
    revert this
    cases existsF fs (candidateAt p (k + 1)) <;> simp
  set L := (List.range (fs.length + 1)).map (fun k => candidateAt p (k + 1))
    with hL
  have hnodup : L.Nodup := by
    refine List.Nodup.map ?_ (List.nodup_range _)
    intro a b hab
    exact candidateAt_inj_pos p a b hab
  have hsub : ∀ s ∈ L, s ∈ fs.map Prod.fst := by
    intro s hs
    rw [hL] at hs
    rcases List.mem_map.mp hs with ⟨k, hk, rfl⟩
    exact mem_keys_of_existsF fs _ (hall k (List.mem_range.mp hk))
  have hcard1 : L.toFinset.card = fs.length + 1 := by
    rw [List.toFinset_card_of_nodup hnodup, hL]
    simp
  have hcard2 : L.toFinset.card ≤ (fs.map Prod.fst).length := by
    calc L.toFinset.card ≤ (fs.map Prod.fst).toFinset.card := by
          apply Finset.card_le_card
          intro x hx
          exact List.mem_toFinset.mpr (hsub x (List.mem_toFinset.mp hx))
      _ ≤ (fs.map Prod.fst).length := List.toFinset_card_le _
  rw [hcard1] at hcard2
  simp only [List.length_map] at hcard2
  omega

theorem searchFree_free (fs : FS) (p : String) :
    ∀ fuel i, (∃ j, i ≤ j ∧ j < i + fuel ∧
        existsF fs (candidateAt p j) = false) →
      existsF fs (searchFree fs p i fuel) = false := by
  intro fuel
  induction fuel with
  | zero => intro i ⟨j, h1, h2, _⟩; omega
  | succ fuel ih =>
    intro i ⟨j, h1, h2, h3⟩
    unfold searchFree
    by_cases hi : existsF fs (candidateAt p i) = true
    · rw [if_pos hi]
      apply ih
      refine ⟨j, ?_, by omega, h3⟩
      rcases Nat.eq_or_lt_of_le h1 with heq | hlt
      · subst heq; rw [h3] at hi; cases hi
      · omega
    · rw [if_neg hi]
      revert hi
      cases existsF fs (candidateAt p i) <;> simp

theorem searchFree_shape (fs : FS) (p : String) :
    ∀ fuel i, ∃ j, i ≤ j ∧ searchFree fs p i fuel = candidateAt p j := by
  intro fuel
  induction fuel with
  | zero => intro i; exact ⟨i, le_refl i, rfl⟩
  | succ fuel ih =>
    intro i
    unfold searchFree
    by_cases hi : existsF fs (candidateAt p i) = true
    · rw [if_pos hi]
      rcases ih (i + 1) with ⟨j, hj1, hj2⟩
      exact ⟨j, by omega, hj2⟩
    · rw [if_neg hi]
      exact ⟨i, le_refl i, rfl⟩

/-- The returned path does not exist in the filesystem state probed. -/
theorem findAvailableOutputPath_free (fs : FS) (p : String) :
    existsF fs (findAvailableOutputPath fs p) = false := by
  unfold findAvailableOutputPath
  apply searchFree_free
  rcases exists_free_candidate fs p with ⟨j, h1, h2, h3⟩
  exact ⟨j, by omega, by omega, h3⟩

/-! ## Timestamp rendering (`timestampFromSeconds`) -/

/-- Models `Math.max` on the (non-NaN) rationals used here. -/
def jsMax (a b : ℚ) : ℚ := if a < b then b else a

/-- Models `Math.min` on the (non-NaN) rationals used here. -/
def jsMin (a b : ℚ) : ℚ := if a < b then a else b

theorem jsMax_eq_max (a b : ℚ) : jsMax a b = max a b := by
  unfold jsMax
  rw [max_def]
  rcases lt_trichotomy a b with h | h | h
  · rw [if_pos h, if_pos (le_of_lt h)]
  · subst h
    simp
  · rw [if_neg (not_lt_of_gt h), if_neg (not_le_of_gt h)]

theorem jsMin_eq_min (a b : ℚ) : jsMin a b = min a b := by
  unfold jsMin
  rw [min_def]
  rcases lt_trichotomy a b with h | h | h
  · rw [if_pos h, if_pos (le_of_lt h)]
  · subst h
    simp
  · rw [if_neg (not_lt_of_gt h), if_neg (not_le_of_gt h)]

/-- JS remainder `a % b` for the nonnegative operands used here. -/
def qmod (a b : ℚ) : ℚ := a - b * (Rat.floor (a / b))

/-- Models `String.prototype.padStart(n, c)`. -/
def padLeft (s : String) (n : Nat) (c : Char) : String :=
  if n ≤ s.data.length then s
  else (List.replicate (n - s.data.length) c).asString ++ s

/-- Models `Number.prototype.toFixed(3)` for the nonnegative values used
here: round to the nearest thousandth, ties away from zero, and print
with exactly three decimals. -/
def toFixed3 (q : ℚ) : String :=
  let n := (Rat.floor (q * 1000 + 1 / 2)).toNat
  natToDec (n / 1000) ++ "." ++ padLeft (natToDec (n % 1000)) 3 '0'

/-- Models `timestampFromSeconds`. -/
def timestampFromSeconds (totalSeconds : ℚ) : String :=
  let safe := jsMax 0 totalSeconds
  let hours := (Rat.floor (safe / 3600)).toNat
  let minutes := (Rat.floor (qmod safe 3600 / 60)).toNat
  let seconds := qmod safe 60
  let hh := padLeft (natToDec hours) 2 '0'
  let mm := padLeft (natToDec minutes) 2 '0'
  let ss := padLeft (toFixed3 seconds) 6 '0'
  hh ++ ":" ++ mm ++ ":" ++ ss

/-! ## Progress parsing (`parseProgressSeconds`)

Models the regex search `/time=(\d{2}):(\d{2}):(\d{2}(?:\.\d+)?)/.exec`:
the scan tries each start position from the left and returns the value of
the first full match. -/

/-- Numeric value of a (most-significant-first) digit character list. -/
def digitsVal (l : List Char) : Nat :=
  l.foldl (fun a c => 10 * a + (c.toNat - 48)) 0

/-- Value of the optional fractional part `(?:\.\d+)?` at the start of
`cs` (greedy; zero if the dot is not followed by a digit). -/
def fracValue (cs : List Char) : ℚ :=
  match cs with
  | '.' :: rest =>
    let ds := rest.takeWhile Char.isDigit
    if ds.isEmpty then 0 else (digitsVal ds : ℚ) / (10 : ℚ) ^ ds.length
  | _ => 0

/-- Try to match the full progress pattern at this position. -/
def matchTimeAt (cs : List Char) : Option ℚ :=
  match cs with
  | 't' :: 'i' :: 'm' :: 'e' :: '=' :: h1 :: h2 :: ':' :: m1 :: m2 :: ':'
      :: s1 :: s2 :: rest =>
    if h1.isDigit && h2.isDigit && m1.isDigit && m2.isDigit && s1.isDigit
        && s2.isDigit then
      some ((10 * (h1.toNat - 48) + (h2.toNat - 48) : Nat) * 3600
        + (10 * (m1.toNat - 48) + (m2.toNat - 48) : Nat) * 60
        + ((10 * (s1.toNat - 48) + (s2.toNat - 48) : Nat) : ℚ)
        + fracValue rest)
    else none
  | _ => none

def parseProgressList : List Char → Option ℚ
  | [] => none
  | c :: rest =>
    match matchTimeAt (c :: rest) with
    | some v => some v
    | none => parseProgressList rest

/-- Models `parseProgressSeconds`. -/
def parseProgressSeconds (raw : String) : Option ℚ :=
  parseProgressList raw.data

/-! ## Probe output parsing (`probeVideo`) -/

structure VideoProbeResult where
  durationSeconds : ℚ
  width : Nat
  height : Nat
  format : String
deriving Repr, DecidableEq

/-- One entry of the tool's `streams` array (the fields read). -/
structure StreamInfo where
  codec_type : Option String
  width : Option Nat
  height : Option Nat

/-- The tool's `format` section (the fields read); `duration` holds the
numeric value of the reported duration string (the `Number(...)`
conversion applied by the engine). -/
structure FormatInfo where
  duration : Option ℚ
  format_name : Option String

/-- The parsed JSON payload emitted by the probing tool. -/
structure ProbePayload where
  format : Option FormatInfo
  streams : Option (List StreamInfo)

/-- The first stream whose type is "video", if any. -/
def firstVideoStream (p : ProbePayload) : Option StreamInfo :=
  p.streams.bind (List.find? (fun s => s.codec_type == some "video"))

/-- Models the result construction in `probeVideo`'s close handler. -/
def probeResultOfPayload (p : ProbePayload) : VideoProbeResult :=
  let videoStream := firstVideoStream p
  { durationSeconds := (p.format.bind (fun f => f.duration)).getD 0
    width := (videoStream.bind (fun s => s.width)).getD 0
    height := (videoStream.bind (fun s => s.height)).getD 0
    format := (p.format.bind (fun f => f.format_name)).getD "unknown" }

/-! ## Trim executor, strategy selector and overwrite coordinator

The ffmpeg subprocess is an oracle per strategy: either the spawn fails
(the promise rejects with the spawn error), or the process runs, emits a
list of diagnostic chunks, exits with a code during which it may have
left content at the output path.  Rejections of the JS promises are
`Except.error`; structured failures are `Except.ok` results with
`ok = false`. -/

/-- The executor strategy (the `mode` argument of `trimWithMode`). -/
inductive Mode
  | copy
  | reencode
deriving Repr, DecidableEq

/-- The request mode (`TrimRequest.mode`). -/
inductive ReqMode
  | smart
  | copy
  | reencode
deriving Repr, DecidableEq

structure TrimRequest where
  jobId : String
  inputPath : String
  outputPath : String
  startSeconds : ℚ
  endSeconds : ℚ
  mode : ReqMode
deriving Repr, DecidableEq

/-- `TrimRequest` minus `outputPath` (an overwrite request). -/
structure OverwriteRequest where
  jobId : String
  inputPath : String
  startSeconds : ℚ
  endSeconds : ℚ
  mode : ReqMode
deriving Repr, DecidableEq

structure TrimResult where
  ok : Bool
  outputPath : String
  usedMode : Mode
  error : Option String
deriving Repr, DecidableEq

/-- Behaviour of one ffmpeg invocation: spawn failure, or a run with an
exit code, the emitted diagnostic chunks, and the content (if any) the
process left at its output path. -/
inductive ExecOutcome
  | spawnErr (msg : String)
  | finished (exitCode : Int) (chunks : List String) (written : Option Nat)

/-- The environment: the per-strategy subprocess oracle and the
writability of directories (the `access(dir, W_OK)` check). -/
structure Env where
  exec : Mode → ExecOutcome
  writable : String → Bool

/-- `totalDuration` in `trimWithMode`. -/
def totalDurationOf (req : TrimRequest) : ℚ :=
  jsMax (1 / 1000) (req.endSeconds - req.startSeconds)

/-- The progress value reported for elapsed time `t`:
`Math.max(0, Math.min(1, t / totalDuration))`. -/
def progressOf (req : TrimRequest) (t : ℚ) : ℚ :=
  jsMax 0 (jsMin 1 (t / totalDurationOf req))

/-- Concatenation of the captured stderr chunks (`stderr += text`). -/
def stderrConcat (chunks : List String) : String :=
  chunks.foldl (fun a c => a ++ c) ""

/-- The error text of a failed run. -/
def trimErrorMsg (chunks : List String) : String :=
  if stderrConcat chunks = "" then "ffmpeg failed to trim the video."
  else stderrConcat chunks

/-- The sequence of `onProgress` values emitted during one invocation:
one value per chunk matching the progress pattern, plus the final
`onProgress(1)` on exit code 0. -/
def execProgress (req : TrimRequest) (o : ExecOutcome) : List ℚ :=
  match o with
  | .spawnErr _ => []
  | .finished code chunks _ =>
    let base := (chunks.filterMap parseProgressSeconds).map (progressOf req)
    if code = 0 then base ++ [1] else base

/-- The settled promise of one invocation. -/
def execResult (req : TrimRequest) (mode : Mode) (o : ExecOutcome) :
    Except String TrimResult :=
  match o with
  | .spawnErr e => .error e
  | .finished code chunks _ =>
    if code = 0 then
      .ok { ok := true, outputPath := req.outputPath, usedMode := mode,
            error := none }
    else
      .ok { ok := false, outputPath := req.outputPath, usedMode := mode,
            error := some (trimErrorMsg chunks) }

/-- The filesystem after one invocation (the process writes only at its
output path). -/
def execFsEffect (fs : FS) (outputPath : String) (o : ExecOutcome) : FS :=
  match o with
  | .spawnErr _ => fs
  | .finished _ _ written =>
    match written with
    | none => fs
    | some w => writeF fs outputPath w

/-- Result of one (or, for smart mode, up to two) executor invocations:
progress values emitted, settled promise, final filesystem. -/
structure TrimOutcome where
  progress : List ℚ
  result : Except String TrimResult
  fs : FS

/-- Models `trimWithMode`. -/
def trimWithMode (env : Env) (fs : FS) (req : TrimRequest) (mode : Mode) :
    TrimOutcome :=
  let o := env.exec mode
  { progress := execProgress req o
    result := execResult req mode o
    fs := execFsEffect fs req.outputPath o }

/-- Models `validateInputVideo`; returns the rejection message, if any. -/
def validateInputVideo (fs : FS) (filePath : String) : Option String :=
  if ¬ existsF fs filePath then some "Selected file does not exist."
  else if ¬ isSupportedVideo filePath then
    some "Unsupported file extension for trimming."
  else none

/-- Models `trimVideo` (the strategy selector). -/
def trimVideo (env : Env) (fs : FS) (req : TrimRequest) : TrimOutcome :=
  if req.startSeconds < 0 ∨ req.endSeconds ≤ req.startSeconds then
    { progress := [], result := .error "Invalid trim range.", fs := fs }
  else
    match validateInputVideo fs req.inputPath with
    | some e => { progress := [], result := .error e, fs := fs }
    | none =>
      if ¬ env.writable (pathDir req.outputPath) then
        { progress := [], result := .error "EACCES: permission denied",
          fs := fs }
      else
        match req.mode with
        | .copy => trimWithMode env fs req .copy
        | .reencode => trimWithMode env fs req .reencode
        | .smart =>
          let c := trimWithMode env fs req .copy
          match c.result with
          | .error e =>
            { progress := c.progress, result := .error e, fs := c.fs }
          | .ok t =>
            if t.ok then c
            else
              let r := trimWithMode env c.fs req .reencode
              { progress := c.progress ++ r.progress, result := r.result,
                fs := r.fs }

/-- Fault injection for the filesystem calls of `overwriteVideo`: a flag
set to `true` makes the corresponding call reject (e.g. `EPERM`), on top
of the inherent failure of renaming a missing source. -/
structure FsFaults where
  renameToBackup : Bool
  renameTempToInput : Bool
  rmBackup : Bool
  renameRollback : Bool
  rmTemp : Bool
deriving Repr, DecidableEq

/-- Models `fs.rename(src, dst)`: fails when the source is missing,
otherwise moves the file, replacing any file at `dst`. -/
def renameF (fs : FS) (src dst : String) : Except String FS :=
  match readF fs src with
  | none => .error "ENOENT: no such file or directory, rename"
  | some v => .ok (writeF (removeF fs src) dst v)

/-- The tail of the catch block: `await rm(tempOutputPath, {force:true});
throw error;` — a faulted `rm` replaces the propagated error. -/
def rmTempThen (faults : FsFaults) (fs : FS) (temp e : String) :
    Except String TrimResult × FS :=
  if faults.rmTemp then (.error "EPERM: rm temp", fs)
  else (.error e, removeF fs temp)

/-- Models the catch block of `overwriteVideo` (the guard is the JS
condition `originalMoved && !existsSync(input) && existsSync(backup)`). -/
def overwriteCatch (faults : FsFaults) (fs : FS)
    (input temp backup : String) (originalMoved : Bool) (e : String) :
    Except String TrimResult × FS :=
  if originalMoved && !existsF fs input && existsF fs backup then
    if faults.renameRollback then (.error "EPERM: rename rollback", fs)
    else
      match renameF fs backup input with
      | .error e2 => (.error e2, fs)
      | .ok fs2 => rmTempThen faults fs2 temp e
  else rmTempThen faults fs temp e

/-- Models the try block of `overwriteVideo` after a successful
trim-to-temp: rename input→backup, rename temp→input, rm backup. -/
def overwriteSwap (faults : FsFaults) (fs : FS)
    (input temp backup : String) (t : TrimResult) :
    Except String TrimResult × FS :=
  if faults.renameToBackup then
    overwriteCatch faults fs input temp backup false "EPERM: rename to backup"
  else
    match renameF fs input backup with
    | .error e => overwriteCatch faults fs input temp backup false e
    | .ok fs2 =>
      if faults.renameTempToInput then
        overwriteCatch faults fs2 input temp backup true
          "EPERM: rename temp to input"
      else
        match renameF fs2 temp input with
        | .error e => overwriteCatch faults fs2 input temp backup true e
        | .ok fs3 =>
          if faults.rmBackup then
            overwriteCatch faults fs3 input temp backup true "EPERM: rm backup"
          else (.ok { t with outputPath := input }, removeF fs3 backup)

/-- The temp output path derived by `overwriteVideo`. -/
def tempPathOf (fs : FS) (req : OverwriteRequest) : String :=
  findAvailableOutputPath fs (makeOverwriteTempPath req.inputPath req.jobId)

/-- The backup path derived by `overwriteVideo`. -/
def backupPathOf (fs : FS) (req : OverwriteRequest) : String :=
  findAvailableOutputPath fs (req.inputPath ++ ".bak")

/-- The trim request `overwriteVideo` forwards to `trimVideo`. -/
def overwriteTrimReq (fs : FS) (req : OverwriteRequest) : TrimRequest :=
  { jobId := req.jobId, inputPath := req.inputPath,
    outputPath := tempPathOf fs req, startSeconds := req.startSeconds,
    endSeconds := req.endSeconds, mode := req.mode }

/-- Models `overwriteVideo`.  The first component is the settled promise
(`Except.error` for a rejection), the second the final filesystem. -/
def overwriteVideo (env : Env) (faults : FsFaults) (fs : FS)
    (req : OverwriteRequest) : Except String TrimResult × FS :=
  match validateInputVideo fs req.inputPath with
  | some e => (.error e, fs)
  | none =>
    if ¬ env.writable (pathDir req.inputPath) then
      (.error "EACCES: permission denied", fs)
    else
      let temp := tempPathOf fs req
      let backup := backupPathOf fs req
      let tr := trimVideo env fs (overwriteTrimReq fs req)
      match tr.result with
      | .error e => (.error e, tr.fs)
      | .ok t =>
        if t.ok = false then (.ok t, tr.fs)
        else overwriteSwap faults tr.fs req.inputPath temp backup t

/-! ## Frame and inversion lemmas for the executor and the swap -/

/-- Content the oracle left at the output path, if any. -/
def execWritten (o : ExecOutcome) : Option Nat :=
  match o with
  | .spawnErr _ => none
  | .finished _ _ written => written

theorem execFsEffect_frame (fs : FS) (out p : String) (o : ExecOutcome)
    (h : p ≠ out) : readF (execFsEffect fs out o) p = readF fs p := by
  cases o with
  | spawnErr _ => rfl
  | finished code chunks written =>
    cases written with
    | none => rfl
    | some w => simp [execFsEffect, readF_writeF_other, h]

theorem execFsEffect_noWrite (fs : FS) (out : String) (o : ExecOutcome)
    (h : execWritten o = none) : execFsEffect fs out o = fs := by
  cases o with
  | spawnErr _ => rfl
  | finished code chunks written => cases written <;> simp_all [execFsEffect, execWritten]

theorem trimWithMode_frame (env : Env) (fs : FS) (req : TrimRequest)
    (mode : Mode) (p : String) (h : p ≠ req.outputPath) :
    readF (trimWithMode env fs req mode).fs p = readF fs p :=
  execFsEffect_frame fs req.outputPath p (env.exec mode) h

theorem trimVideo_frame (env : Env) (fs : FS) (req : TrimRequest)
    (p : String) (h : p ≠ req.outputPath) :
    readF (trimVideo env fs req).fs p = readF fs p := by
  unfold trimVideo
  split
  · rfl
  · split
    · rfl
    · split
      · rfl
      · split
        · exact trimWithMode_frame env fs req .copy p h
        · exact trimWithMode_frame env fs req .reencode p h
        · simp only
          split
          · exact trimWithMode_frame env fs req .copy p h
          · split
            · exact trimWithMode_frame env fs req .copy p h
            · simp only
              rw [trimWithMode_frame env _ req .reencode p h]
              exact trimWithMode_frame env fs req .copy p h

theorem trimVideo_noWrite (env : Env) (fs : FS) (req : TrimRequest)
    (h : ∀ m, execWritten (env.exec m) = none) :
    (trimVideo env fs req).fs = fs := by
  have hw : ∀ fs' mode, (trimWithMode env fs' req mode).fs = fs' := by
    intro fs' mode
    exact execFsEffect_noWrite fs' req.outputPath (env.exec mode) (h mode)
  unfold trimVideo
  split
  · rfl
  · split
    · rfl
    · split
      · rfl
      · split
        · exact hw fs .copy
        · exact hw fs .reencode
        · simp only
          split
          · exact hw fs .copy
          · split
            · exact hw fs .copy
            · simp only
              rw [hw _ .reencode, hw fs .copy]

/-- The catch block always propagates a rejection, never a result. -/
theorem overwriteCatch_error (faults : FsFaults) (fs : FS)
    (input temp backup : String) (om : Bool) (e : String) :
    ∀ r, (overwriteCatch faults fs input temp backup om e).1 ≠ .ok r := by
  intro r
  unfold overwriteCatch rmTempThen
  split
  · split
    · simp
    · split
      · simp
      · split <;> simp
  · split <;> simp

theorem renameF_ok_inv (fs : FS) (src dst : String) (fs' : FS)
    (h : renameF fs src dst = .ok fs') :
    ∃ v, readF fs src = some v ∧ fs' = writeF (removeF fs src) dst v := by
  rcases heq : readF fs src with _ | v
  · unfold renameF at h
    rw [heq] at h
    cases h
  · unfold renameF at h
    rw [heq] at h
    simp only [Except.ok.injEq] at h
    exact ⟨v, rfl, h.symm⟩

theorem rmTempThen_frame (faults : FsFaults) (fs : FS) (temp e p : String)
    (h : p ≠ temp) :
    readF (rmTempThen faults fs temp e).2 p = readF fs p := by
  unfold rmTempThen
  split
  · rfl
  · simp only
    exact readF_removeF_other fs temp p h

theorem overwriteCatch_frame (faults : FsFaults) (fs : FS)
    (input temp backup : String) (om : Bool) (e p : String)
    (hi : p ≠ input) (ht : p ≠ temp) (hb : p ≠ backup) :
    readF (overwriteCatch faults fs input temp backup om e).2 p =
      readF fs p := by
  unfold overwriteCatch
  split
  · split
    · rfl
    · split
      · rfl
      · rename_i fs2 heq
        obtain ⟨v, hv, rfl⟩ := renameF_ok_inv _ _ _ _ heq
        rw [rmTempThen_frame _ _ _ _ _ ht,
          readF_writeF_other _ _ _ _ hi, readF_removeF_other _ _ _ hb]
  · exact rmTempThen_frame _ _ _ _ _ ht

theorem overwriteSwap_frame (faults : FsFaults) (fs : FS)
    (input temp backup : String) (t : TrimResult) (p : String)
    (hi : p ≠ input) (ht : p ≠ temp) (hb : p ≠ backup) :
    readF (overwriteSwap faults fs input temp backup t).2 p =
      readF fs p := by
  unfold overwriteSwap
  split
  · exact overwriteCatch_frame _ _ _ _ _ _ _ _ hi ht hb
  · split
    · exact overwriteCatch_frame _ _ _ _ _ _ _ _ hi ht hb
    · rename_i fs2 heq
      obtain ⟨v, hv, rfl⟩ := renameF_ok_inv _ _ _ _ heq
      have hfs2 : readF (writeF (removeF fs input) backup v) p =
          readF fs p := by
        rw [readF_writeF_other _ _ _ _ hb, readF_removeF_other _ _ _ hi]
      split
      · rw [overwriteCatch_frame _ _ _ _ _ _ _ _ hi ht hb, hfs2]
      · split
        · rw [overwriteCatch_frame _ _ _ _ _ _ _ _ hi ht hb, hfs2]
        · rename_i fs3 heq3
          obtain ⟨w, hw, rfl⟩ := renameF_ok_inv _ _ _ _ heq3
          have hfs3 : readF (writeF (removeF (writeF (removeF fs input)
              backup v) temp) input w) p = readF fs p := by
            rw [readF_writeF_other _ _ _ _ hi,
              readF_removeF_other _ _ _ ht, hfs2]
          split
          · rw [overwriteCatch_frame _ _ _ _ _ _ _ _ hi ht hb, hfs3]
          · simp only
            rw [readF_removeF_other _ _ _ hb, hfs3]

/-! Branch equations for the swap and the catch block. -/

theorem rmTempThen_eq (faults : FsFaults) (fs : FS) (temp e : String)
    (hf : faults.rmTemp = false) :
    rmTempThen faults fs temp e = (.error e, removeF fs temp) := by
  unfold rmTempThen
  rw [hf]
  simp

theorem overwriteCatch_eq_noRollback (faults : FsFaults) (fs : FS)
    (input temp backup : String) (om : Bool) (e : String)
    (hg : (om && !existsF fs input && existsF fs backup) = false) :
    overwriteCatch faults fs input temp backup om e =
      rmTempThen faults fs temp e := by
  unfold overwriteCatch
  rw [hg]
  simp

theorem overwriteCatch_eq_rollback (faults : FsFaults) (fs : FS)
    (input temp backup : String) (om : Bool) (e : String) (fs2 : FS)
    (hg : (om && !existsF fs input && existsF fs backup) = true)
    (hf : faults.renameRollback = false)
    (hre : renameF fs backup input = .ok fs2) :
    overwriteCatch faults fs input temp backup om e =
      rmTempThen faults fs2 temp e := by
  unfold overwriteCatch
  rw [hg, hf]
  simp [hre]

theorem overwriteSwap_eq_fault1 (faults : FsFaults) (fs : FS)
    (input temp backup : String) (t : TrimResult)
    (hf : faults.renameToBackup = true) :
    overwriteSwap faults fs input temp backup t =
      overwriteCatch faults fs input temp backup false
        "EPERM: rename to backup" := by
  unfold overwriteSwap
  rw [hf]
  simp

theorem overwriteSwap_eq_rename1Err (faults : FsFaults) (fs : FS)
    (input temp backup : String) (t : TrimResult) (e : String)
    (hf : faults.renameToBackup = false)
    (hre : renameF fs input backup = .error e) :
    overwriteSwap faults fs input temp backup t =
      overwriteCatch faults fs input temp backup false e := by
  unfold overwriteSwap
  rw [hf]
  simp [hre]

theorem overwriteSwap_eq_fault2 (faults : FsFaults) (fs : FS)
    (input temp backup : String) (t : TrimResult) (fs2 : FS)
    (hf : faults.renameToBackup = false)
    (hre : renameF fs input backup = .ok fs2)
    (hf2 : faults.renameTempToInput = true) :
    overwriteSwap faults fs input temp backup t =
      overwriteCatch faults fs2 input temp backup true
        "EPERM: rename temp to input" := by
  unfold overwriteSwap
  rw [hf]
  simp [hre, hf2]

theorem overwriteSwap_eq_rename2Err (faults : FsFaults) (fs : FS)
    (input temp backup : String) (t : TrimResult) (fs2 : FS) (e : String)
    (hf : faults.renameToBackup = false)
    (hre : renameF fs input backup = .ok fs2)
    (hf2 : faults.renameTempToInput = false)
    (hre2 : renameF fs2 temp input = .error e) :
    overwriteSwap faults fs input temp backup t =
      overwriteCatch faults fs2 input temp backup true e := by
  unfold overwriteSwap
  rw [hf]
  simp [hre, hf2, hre2]

theorem overwriteSwap_eq_fault3 (faults : FsFaults) (fs : FS)
    (input temp backup : String) (t : TrimResult) (fs2 fs3 : FS)
    (hf : faults.renameToBackup = false)
    (hre : renameF fs input backup = .ok fs2)
    (hf2 : faults.renameTempToInput = false)
    (hre2 : renameF fs2 temp input = .ok fs3)
    (hf3 : faults.rmBackup = true) :
    overwriteSwap faults fs input temp backup t =
      overwriteCatch faults fs3 input temp backup true
        "EPERM: rm backup" := by
  unfold overwriteSwap
  rw [hf]
  simp [hre, hf2, hre2, hf3]

theorem overwriteSwap_eq_success (faults : FsFaults) (fs : FS)
    (input temp backup : String) (t : TrimResult) (fs2 fs3 : FS)
    (hf : faults.renameToBackup = false)
    (hre : renameF fs input backup = .ok fs2)
    (hf2 : faults.renameTempToInput = false)
    (hre2 : renameF fs2 temp input = .ok fs3)
    (hf3 : faults.rmBackup = false) :
    overwriteSwap faults fs input temp backup t =
      (.ok { t with outputPath := input }, removeF fs3 backup) := by
  unfold overwriteSwap
  rw [hf]
  simp [hre, hf2, hre2, hf3]

/-- A swap that settles with a result (rather than a rejection) must have
taken the full clean path: both renames succeeded and the backup was
deleted. -/
theorem overwriteSwap_ok_inv (faults : FsFaults) (fs : FS)
    (input temp backup : String) (t : TrimResult) (r : TrimResult)
    (h : (overwriteSwap faults fs input temp backup t).1 = .ok r) :
    r = { t with outputPath := input } ∧
    ∃ v w, readF fs input = some v ∧
      readF (writeF (removeF fs input) backup v) temp = some w ∧
      (overwriteSwap faults fs input temp backup t).2 =
        removeF (writeF (removeF (writeF (removeF fs input) backup v) temp)
          input w) backup := by
  rcases hf1 : faults.renameToBackup with _ | _
  case true =>
    rw [overwriteSwap_eq_fault1 _ _ _ _ _ _ hf1] at h
    exact absurd h (overwriteCatch_error _ _ _ _ _ _ _ r)
  case false =>
  rcases hre : renameF fs input backup with e | fs2
  case error =>
    rw [overwriteSwap_eq_rename1Err _ _ _ _ _ _ _ hf1 hre] at h
    exact absurd h (overwriteCatch_error _ _ _ _ _ _ _ r)
  case ok =>
  rcases hf2 : faults.renameTempToInput with _ | _
  case true =>
    rw [overwriteSwap_eq_fault2 _ _ _ _ _ _ _ hf1 hre hf2] at h
    exact absurd h (overwriteCatch_error _ _ _ _ _ _ _ r)
  case false =>
  rcases hre2 : renameF fs2 temp input with e | fs3
  case error =>
    rw [overwriteSwap_eq_rename2Err _ _ _ _ _ _ _ _ hf1 hre hf2 hre2] at h
    exact absurd h (overwriteCatch_error _ _ _ _ _ _ _ r)
  case ok =>
  rcases hf3 : faults.rmBackup with _ | _
  case true =>
    rw [overwriteSwap_eq_fault3 _ _ _ _ _ _ _ _ hf1 hre hf2 hre2 hf3] at h
    exact absurd h (overwriteCatch_error _ _ _ _ _ _ _ r)
  case false =>
  have heq := overwriteSwap_eq_success faults fs input temp backup t fs2 fs3
    hf1 hre hf2 hre2 hf3
  rw [heq] at h ⊢
  obtain ⟨v, hv, rfl⟩ := renameF_ok_inv _ _ _ _ hre
  obtain ⟨w, hw, rfl⟩ := renameF_ok_inv _ _ _ _ hre2
  simp only [Except.ok.injEq] at h
  exact ⟨h.symm, v, w, hv, hw, rfl⟩

/-- Trace of the swap when renaming the temp output onto the input fails:
the catch block restores the original from the backup, removes the temp
file and rethrows. -/
theorem overwriteSwap_rename2_fault (faults : FsFaults) (fs : FS)
    (input temp backup : String) (t : TrimResult) (v : Nat)
    (hf1 : faults.renameToBackup = false)
    (hf2 : faults.renameTempToInput = true)
    (hf4 : faults.renameRollback = false)
    (hf5 : faults.rmTemp = false)
    (hv : readF fs input = some v)
    (hit : input ≠ temp) (hib : input ≠ backup) (htb : temp ≠ backup) :
    (overwriteSwap faults fs input temp backup t).1 =
      .error "EPERM: rename temp to input" ∧
    readF (overwriteSwap faults fs input temp backup t).2 input = some v ∧
    readF (overwriteSwap faults fs input temp backup t).2 temp = none ∧
    readF (overwriteSwap faults fs input temp backup t).2 backup = none := by
  have hr1 : renameF fs input backup =
      .ok (writeF (removeF fs input) backup v) := by
    unfold renameF
    rw [hv]
  have hin2 : readF (writeF (removeF fs input) backup v) input = none := by
    rw [readF_writeF_other _ _ _ _ hib, readF_removeF_same]
  have hbk2 : readF (writeF (removeF fs input) backup v) backup = some v :=
    readF_writeF_same _ _ _
  have hguard : (true && !existsF (writeF (removeF fs input) backup v) input
      && existsF (writeF (removeF fs input) backup v) backup) = true := by
    rw [existsF, existsF, hin2, hbk2]
    rfl
  have hr2 : renameF (writeF (removeF fs input) backup v) backup input =
      .ok (writeF (removeF (writeF (removeF fs input) backup v) backup)
        input v) := by
    unfold renameF
    rw [hbk2]
  rw [overwriteSwap_eq_fault2 _ _ _ _ _ _ _ hf1 hr1 hf2,
    overwriteCatch_eq_rollback _ _ _ _ _ _ _ _ hguard hf4 hr2,
    rmTempThen_eq _ _ _ _ hf5]
  refine ⟨rfl, ?_, ?_, ?_⟩
  · rw [readF_removeF_other _ _ _ hit, readF_writeF_same]
  · rw [readF_removeF_same]
  · rw [readF_removeF_other _ _ _ (Ne.symm htb),
      readF_writeF_other _ _ _ _ (Ne.symm hib), readF_removeF_same]

/-- Trace of the swap when deleting the backup fails after both renames
succeeded: the catch block performs no rollback (the input path is
populated with the trimmed file), removes the already-absent temp path
and rethrows the deletion error; the backup file remains. -/
theorem overwriteSwap_rmBackup_fault (faults : FsFaults) (fs : FS)
    (input temp backup : String) (t : TrimResult) (v w : Nat)
    (hf1 : faults.renameToBackup = false)
    (hf2 : faults.renameTempToInput = false)
    (hf3 : faults.rmBackup = true)
    (hf5 : faults.rmTemp = false)
    (hv : readF fs input = some v)
    (hw : readF fs temp = some w)
    (hit : input ≠ temp) (hib : input ≠ backup) (htb : temp ≠ backup) :
    (overwriteSwap faults fs input temp backup t).1 =
      .error "EPERM: rm backup" ∧
    readF (overwriteSwap faults fs input temp backup t).2 input = some w ∧
    readF (overwriteSwap faults fs input temp backup t).2 temp = none ∧
    readF (overwriteSwap faults fs input temp backup t).2 backup
      = some v := by
  have hr1 : renameF fs input backup =
      .ok (writeF (removeF fs input) backup v) := by
    unfold renameF
    rw [hv]
  have htmp2 : readF (writeF (removeF fs input) backup v) temp = some w := by
    rw [readF_writeF_other _ _ _ _ htb, readF_removeF_other _ _ _ (Ne.symm hit), hw]
  have hr2 : renameF (writeF (removeF fs input) backup v) temp input =
      .ok (writeF (removeF (writeF (removeF fs input) backup v) temp)
        input w) := by
    unfold renameF
    rw [htmp2]
  have hin3 : readF (writeF (removeF (writeF (removeF fs input) backup v)
      temp) input w) input = some w := readF_writeF_same _ _ _
  have hguard : (true && !existsF (writeF (removeF (writeF (removeF fs
      input) backup v) temp) input w) input
      && existsF (writeF (removeF (writeF (removeF fs input) backup v)
        temp) input w) backup) = false := by
    rw [existsF, hin3]
    rfl
  rw [overwriteSwap_eq_fault3 _ _ _ _ _ _ _ _ hf1 hr1 hf2 hr2 hf3,
    overwriteCatch_eq_noRollback _ _ _ _ _ _ _ hguard,
    rmTempThen_eq _ _ _ _ hf5]
  refine ⟨rfl, ?_, ?_, ?_⟩
  · rw [readF_removeF_other _ _ _ hit, hin3]
  · rw [readF_removeF_same]
  · rw [readF_removeF_other _ _ _ (Ne.symm htb),
      readF_writeF_other _ _ _ _ (Ne.symm hib),
      readF_removeF_other _ _ _ (Ne.symm htb), readF_writeF_same]

/-! ## The derived temp path and backup path are always distinct

Every candidate probed for the backup path ends in the character 'k'
(of ".bak"), while every candidate probed for the temp path ends either
in the last character of the input's (supported) extension or in a
decimal digit — never 'k'. -/

/-- Last character of a string, if any. -/
def lastC (s : String) : Option Char := s.data.getLast?

theorem asString_data (l : List Char) : l.asString.data = l := rfl

theorem data_ne_nil_iff (s : String) : s.data ≠ [] ↔ s ≠ "" := by
  constructor
  · intro h hcon
    apply h
    rw [hcon]
  · intro h hcon
    apply h
    obtain ⟨d⟩ := s
    exact congrArg String.mk hcon

theorem lastC_append (s t : String) (h : t.data ≠ []) :
    lastC (s ++ t) = lastC t := by
  unfold lastC
  rw [String.data_append, List.getLast?_append]
  rcases ht : t.data.getLast? with _ | a
  · rw [List.getLast?_eq_none_iff] at ht
    exact absurd ht h
  · rfl

theorem append_data_ne_nil (s t : String) (h : t.data ≠ []) :
    (s ++ t).data ≠ [] := by
  rw [String.data_append]
  intro hcon
  rcases List.append_eq_nil.mp hcon with ⟨_, h2⟩
  exact h h2

theorem lastC_pathJoin (d b : String) (h : b.data ≠ []) :
    lastC (pathJoin d b) = lastC b := by
  unfold pathJoin
  split
  · rfl
  · rw [lastC_append _ _ h]

theorem pathJoin_data_ne_nil (d b : String) (h : b.data ≠ []) :
    (pathJoin d b).data ≠ [] := by
  unfold pathJoin
  split
  · exact h
  · exact append_data_ne_nil _ _ h

theorem lastC_pathBase (p : String) (c : Char) (hc : lastC p = some c)
    (hs : c ≠ '/') :
    lastC (pathBase p) = some c ∧ (pathBase p).data ≠ [] := by
  unfold lastC at hc
  obtain ⟨ys, hys⟩ := List.getLast?_eq_some_iff.mp hc
  unfold pathBase lastC
  have hpa : (fun ch => decide (ch ≠ '/')) c = true := by
    simp [hs]
  simp only [hys, List.reverse_append, List.reverse_cons, List.reverse_nil,
    List.nil_append, List.cons_append]
  have htw : List.takeWhile (fun ch => decide (ch ≠ '/')) (c :: ys.reverse)
      = c :: List.takeWhile (fun ch => decide (ch ≠ '/')) ys.reverse := by
    rw [List.takeWhile_cons]
    simp [hs]
  constructor
  · rw [asString_data, List.getLast?_reverse, htw]
    rfl
  · rw [asString_data, htw]
    simp

theorem extSplit_getLast (bd : List Char) (c : Char)
    (hb : bd.getLast? = some c) (hd : c ≠ '.') (hne : extSplit bd ≠ []) :
    (extSplit bd).getLast? = some c := by
  cases bd with
  | nil => cases hb
  | cons c0 rest =>
    cases rest with
    | nil =>
      simp only [extSplit, List.reverse_nil, List.takeWhile_nil,
        List.length_nil, if_pos] at hne
      exact absurd rfl hne
    | cons r0 r1 =>
      rw [List.getLast?_cons_cons] at hb
      obtain ⟨ys, hys⟩ := List.getLast?_eq_some_iff.mp hb
      have hpa : (fun ch => decide (ch ≠ '.')) c = true := by
        simp [hd]
      simp only [extSplit, hys, List.reverse_append, List.reverse_cons,
        List.reverse_nil, List.nil_append, List.cons_append,
        List.takeWhile_cons_of_pos hpa] at hne ⊢
      split at hne
      · exact absurd rfl hne
      · rename_i hlen
        have htw : List.takeWhile (fun ch => decide (ch ≠ '.'))
            (c :: ys.reverse)
            = c :: List.takeWhile (fun ch => decide (ch ≠ '.'))
              ys.reverse := by
          rw [List.takeWhile_cons]
          simp [hd]
        rw [if_neg hlen, htw, List.reverse_cons,
          show ('.' :: ((List.takeWhile (fun ch => decide (ch ≠ '.'))
            ys.reverse).reverse ++ [c])) =
            ('.' :: (List.takeWhile (fun ch => decide (ch ≠ '.'))
              ys.reverse).reverse) ++ [c] by simp]
        exact List.getLast?_concat _

theorem lastC_extname (p : String) (c : Char) (hc : lastC p = some c)
    (hs : c ≠ '/') (hd : c ≠ '.') (hne : extname p ≠ "") :
    lastC (extname p) = some c := by
  obtain ⟨hb, hbne⟩ := lastC_pathBase p c hc hs
  unfold extname at hne ⊢
  unfold lastC at hb ⊢
  rw [asString_data]
  apply extSplit_getLast _ _ hb hd
  intro hcon
  apply hne
  rw [hcon]
  rfl

theorem natToDec_data_ne_nil (n : Nat) : (natToDec n).data ≠ [] := by
  unfold natToDec
  simp only [List.asString]
  intro hcon
  have hmap : (decDigits n).map digitCh = [] := hcon
  rw [List.map_eq_nil_iff] at hmap
  rw [decDigits_eq] at hmap
  split at hmap
  · cases hmap
  · exact absurd hmap (by simp)

theorem lastC_natToDec (n : Nat) :
    ∃ d, d < 10 ∧ lastC (natToDec n) = some (digitCh d) := by
  unfold lastC natToDec
  simp only [List.asString, List.getLast?_map]
  rcases hg : (decDigits n).getLast? with _ | d
  · rw [List.getLast?_eq_none_iff] at hg
    rw [decDigits_eq] at hg
    split at hg
    · cases hg
    · exact absurd hg (by simp)
  · refine ⟨d, ?_, rfl⟩
    exact decDigits_lt_ten n d (List.mem_of_getLast?_eq_some hg)

theorem digitCh_ne_k (d : Nat) (h : d < 10) : digitCh d ≠ 'k' := by
  interval_cases d <;> decide

theorem toLowerStr_data (s : String) :
    (toLowerStr s).data = s.data.map Char.toLower := rfl

/-- The last character of a supported extension: defined, not 'k', not a
separator, not a dot. -/
theorem supported_last_char (p : String) (h : isSupportedVideo p = true) :
    ∃ c, lastC (extname p) = some c ∧ c ≠ 'k' ∧ c ≠ '/' ∧ c ≠ '.' := by
  unfold isSupportedVideo at h
  rcases List.contains_iff_exists_mem_beq.mp h with ⟨x, hx, hbeq⟩
  rw [beq_iff_eq] at hbeq
  have hmap : (extname p).data.map Char.toLower = x.data := by
    rw [← toLowerStr_data, hbeq]
  have hlast : ((extname p).data.getLast?).map Char.toLower =
      x.data.getLast? := by
    rw [← List.getLast?_map, hmap]
  have hx6 : x ∈ [".mp4", ".mov", ".mkv", ".webm", ".avi", ".m4v"] := hx
  simp only [List.mem_cons, List.not_mem_nil, or_false] at hx6
  have hget : ∃ lc, x.data.getLast? = some lc ∧ Char.toLower 'k' ≠ lc ∧
      Char.toLower '/' ≠ lc ∧ Char.toLower '.' ≠ lc := by
    rcases hx6 with rfl | rfl | rfl | rfl | rfl | rfl
    · exact ⟨'4', by decide, by decide, by decide, by decide⟩
    · exact ⟨'v', by decide, by decide, by decide, by decide⟩
    · exact ⟨'v', by decide, by decide, by decide, by decide⟩
    · exact ⟨'m', by decide, by decide, by decide, by decide⟩
    · exact ⟨'i', by decide, by decide, by decide, by decide⟩
    · exact ⟨'v', by decide, by decide, by decide, by decide⟩
  rcases hget with ⟨lc, hlc, hk, hsl, hdot⟩
  rw [hlc] at hlast
  rcases hc : (extname p).data.getLast? with _ | c
  · rw [hc] at hlast
    cases hlast
  · rw [hc] at hlast
    have hcl : Char.toLower c = lc := Option.some.inj hlast
    refine ⟨c, hc, ?_, ?_, ?_⟩
    · intro hcon; subst hcon; exact hk hcl
    · intro hcon; subst hcon; exact hsl hcl
    · intro hcon; subst hcon; exact hdot hcl

theorem extname_ne_empty_of_supported (p : String)
    (h : isSupportedVideo p = true) : extname p ≠ "" := by
  rcases supported_last_char p h with ⟨c, hc, _⟩
  intro hcon
  rw [hcon] at hc
  cases hc

theorem pathBase_ne_nil_of_supported (p : String)
    (h : isSupportedVideo p = true) : (pathBase p).data ≠ [] := by
  have hne := extname_ne_empty_of_supported p h
  unfold extname at hne
  intro hcon
  rw [hcon] at hne
  exact hne rfl

theorem lastC_append_empty (s : String) : lastC (s ++ "") = lastC s := by
  unfold lastC
  rw [String.data_append]
  simp

theorem lastC_numberedCandidate (p : String) (i : Nat) :
    (extname p ≠ "" ∧
      lastC (numberedCandidate p i) = lastC (extname p)) ∨
    (extname p = "" ∧
      ∃ d, d < 10 ∧ lastC (numberedCandidate p i) = some (digitCh d)) := by
  by_cases hne : extname p = ""
  · right
    refine ⟨hne, ?_⟩
    obtain ⟨d, hd, hdig⟩ := lastC_natToDec i
    refine ⟨d, hd, ?_⟩
    unfold numberedCandidate
    rw [hne, lastC_pathJoin, lastC_append_empty,
      lastC_append _ _ (natToDec_data_ne_nil i)]
    · exact hdig
    · rw [String.data_append]
      simp only [show ("" : String).data = [] from rfl, List.append_nil]
      exact append_data_ne_nil _ _ (natToDec_data_ne_nil i)
  · left
    refine ⟨hne, ?_⟩
    have hdata := (data_ne_nil_iff (extname p)).mpr hne
    unfold numberedCandidate
    rw [lastC_pathJoin _ _ (append_data_ne_nil _ _ hdata),
      lastC_append _ _ hdata]

/-- Every candidate probed for the temp output path ends in a character
other than 'k': either the input's supported extension's last character,
or a decimal digit. -/
theorem temp_candidate_ne_k (input jobId : String)
    (hsup : isSupportedVideo input = true) (j : Nat) :
    ∃ c, lastC (candidateAt (makeOverwriteTempPath input jobId) j) = some c
      ∧ c ≠ 'k' := by
  obtain ⟨c, hce, hk, hs, hdot⟩ := supported_last_char input hsup
  have he_ne : (extname input).data ≠ [] := by
    intro hcon
    unfold lastC at hce
    rw [hcon] at hce
    cases hce
  have hlast0 : lastC (makeOverwriteTempPath input jobId) = some c := by
    unfold makeOverwriteTempPath
    rw [lastC_pathJoin _ _ (append_data_ne_nil _ _ he_ne),
      lastC_append _ _ he_ne]
    exact hce
  cases j with
  | zero => exact ⟨c, hlast0, hk⟩
  | succ j =>
    rcases lastC_numberedCandidate (makeOverwriteTempPath input jobId)
        (j + 1) with ⟨hne, heq⟩ | ⟨_, d, hd, heq⟩
    · refine ⟨c, ?_, hk⟩
      rw [show candidateAt (makeOverwriteTempPath input jobId) (j + 1) =
        numberedCandidate (makeOverwriteTempPath input jobId) (j + 1)
        from rfl, heq]
      exact lastC_extname _ c hlast0 hs hdot hne
    · exact ⟨digitCh d, heq, digitCh_ne_k d hd⟩

theorem pathBase_appendBak (x : String) :
    (pathBase (x ++ ".bak")).data =
      (pathBase x).data ++ ['.', 'b', 'a', 'k'] := by
  unfold pathBase
  rw [asString_data, asString_data, String.data_append,
    show (".bak" : String).data = ['.', 'b', 'a', 'k'] from rfl,
    List.reverse_append,
    show (['.', 'b', 'a', 'k'] : List Char).reverse
      = ['k', 'a', 'b', '.'] from rfl]
  have t1 : List.takeWhile (fun c => decide (c ≠ '/'))
      ('k' :: 'a' :: 'b' :: '.' :: x.data.reverse)
      = 'k' :: 'a' :: 'b' :: '.' ::
        List.takeWhile (fun c => decide (c ≠ '/')) x.data.reverse := by
    simp [List.takeWhile_cons]
  rw [show ('k' :: 'a' :: 'b' :: '.' :: x.data.reverse)
    = ['k', 'a', 'b', '.'] ++ x.data.reverse from rfl] at t1
  rw [t1]
  simp

theorem extname_appendBak (x : String)
    (hb : (pathBase x).data ≠ []) : extname (x ++ ".bak") = ".bak" := by
  unfold extname
  rw [pathBase_appendBak]
  rcases hbase : (pathBase x).data with _ | ⟨c0, r⟩
  · exact absurd hbase hb
  · rw [show ((c0 :: r) ++ ['.', 'b', 'a', 'k'])
      = c0 :: (r ++ ['.', 'b', 'a', 'k']) from rfl]
    simp only [extSplit]
    have t2 : List.takeWhile (fun c => decide (c ≠ '.'))
        ((r ++ ['.', 'b', 'a', 'k']).reverse) = ['k', 'a', 'b'] := by
      rw [List.reverse_append,
        show (['.', 'b', 'a', 'k'] : List Char).reverse
          = ['k', 'a', 'b', '.'] from rfl]
      simp [List.takeWhile_cons]
    rw [t2]
    have hlen : (['k', 'a', 'b'] : List Char).length ≠
        (r ++ ['.', 'b', 'a', 'k']).length := by
      simp
    rw [if_neg hlen]
    rfl

/-- Every candidate probed for the backup path ends in 'k'. -/
theorem backup_candidate_k (input : String)
    (hb : (pathBase input).data ≠ []) (k : Nat) :
    lastC (candidateAt (input ++ ".bak") k) = some 'k' := by
  have hbakd : (".bak" : String).data ≠ [] := by
    rw [show (".bak" : String).data = ['.', 'b', 'a', 'k'] from rfl]
    simp
  have hbk : lastC (input ++ ".bak") = some 'k' := by
    rw [lastC_append _ _ hbakd]
    rfl
  cases k with
  | zero => exact hbk
  | succ k =>
    have hext : extname (input ++ ".bak") = ".bak" :=
      extname_appendBak input hb
    rcases lastC_numberedCandidate (input ++ ".bak") (k + 1) with
        ⟨_, heq⟩ | ⟨hempty, _⟩
    · rw [show candidateAt (input ++ ".bak") (k + 1) =
        numberedCandidate (input ++ ".bak") (k + 1) from rfl, heq, hext]
      rfl
    · rw [hext] at hempty
      exact absurd hempty (by decide)

theorem ne_of_exists_fresh (fs : FS) (a b : String)
    (ha : existsF fs a = true) (hb : existsF fs b = false) : a ≠ b := by
  intro h
  rw [h, hb] at ha
  cases ha

/-- The collision-resolved temp path and backup path of an overwrite
request with a supported input are always distinct. -/
theorem tempPathOf_ne_backupPathOf (fs : FS) (req : OverwriteRequest)
    (hsup : isSupportedVideo req.inputPath = true) :
    tempPathOf fs req ≠ backupPathOf fs req := by
  unfold tempPathOf backupPathOf findAvailableOutputPath
  obtain ⟨j, _, hj⟩ := searchFree_shape fs
    (makeOverwriteTempPath req.inputPath req.jobId) (fs.length + 2) 0
  obtain ⟨k, _, hk⟩ := searchFree_shape fs
    (req.inputPath ++ ".bak") (fs.length + 2) 0
  rw [hj, hk]
  obtain ⟨c, hc, hck⟩ :=
    temp_candidate_ne_k req.inputPath req.jobId hsup j
  have hbk := backup_candidate_k req.inputPath
    (pathBase_ne_nil_of_supported _ hsup) k
  intro heq
  rw [heq, hbk] at hc
  exact hck (Option.some.inj hc).symm

/-! ## Facts about the timestamp arithmetic -/

theorem ratFloor_eq_intFloor (q : ℚ) : Rat.floor q = ⌊q⌋ := by
  rw [Rat.floor_def', Rat.floor_def]

theorem qmod_eq_mul_fract (a b : ℚ) (hb : b ≠ 0) :
    qmod a b = b * Int.fract (a / b) := by
  unfold qmod
  rw [ratFloor_eq_intFloor, Int.fract]
  field_simp

theorem qmod_nonneg (a b : ℚ) (hb : 0 < b) : 0 ≤ qmod a b := by
  rw [qmod_eq_mul_fract a b (ne_of_gt hb)]
  exact mul_nonneg (le_of_lt hb) (Int.fract_nonneg _)

theorem qmod_lt (a b : ℚ) (hb : 0 < b) : qmod a b < b := by
  rw [qmod_eq_mul_fract a b (ne_of_gt hb)]
  calc b * Int.fract (a / b) < b * 1 :=
        (mul_lt_mul_left hb).mpr (Int.fract_lt_one _)
    _ = b := mul_one b

/-- The code reads seconds as `safe % 60` and minutes from `safe % 3600`;
the two remainders agree: `safe % 60 = (safe % 3600) % 60`. -/
theorem qmod_qmod_3600_60 (a : ℚ) : qmod (qmod a 3600) 60 = qmod a 60 := by
  unfold qmod
  rw [ratFloor_eq_intFloor, ratFloor_eq_intFloor, ratFloor_eq_intFloor]
  have h1 : (a - 3600 * (⌊a / 3600⌋ : ℚ)) / 60 =
      a / 60 + (-60 * ⌊a / 3600⌋ : ℤ) := by
    push_cast
    ring
  rw [h1, Int.floor_add_int]
  push_cast
  ring

/-- The hours figure the rendered timestamp shows. -/
def hoursVal (q : ℚ) : Nat := (Rat.floor (jsMax 0 q / 3600)).toNat

/-- The minutes figure the rendered timestamp shows. -/
def minutesVal (q : ℚ) : Nat :=
  (Rat.floor (qmod (jsMax 0 q) 3600 / 60)).toNat

/-- The seconds field of the rendered timestamp, in milliseconds
(its three decimals included). -/
def milliVal (q : ℚ) : Nat :=
  (Rat.floor (qmod (jsMax 0 q) 60 * 1000 + 1 / 2)).toNat

theorem minutesVal_lt (q : ℚ) : minutesVal q < 60 := by
  unfold minutesVal
  rw [ratFloor_eq_intFloor]
  have h1 : qmod (jsMax 0 q) 3600 < 3600 := qmod_lt _ _ (by norm_num)
  have h2 : ⌊qmod (jsMax 0 q) 3600 / 60⌋ < (60 : ℤ) := by
    rw [Int.floor_lt]
    push_cast
    linarith
  omega

theorem milliVal_le (q : ℚ) : milliVal q ≤ 60000 := by
  unfold milliVal
  rw [ratFloor_eq_intFloor]
  have h1 : qmod (jsMax 0 q) 60 < 60 := qmod_lt _ _ (by norm_num)
  have h2 : ⌊qmod (jsMax 0 q) 60 * 1000 + 1 / 2⌋ < (60001 : ℤ) := by
    rw [Int.floor_lt]
    push_cast
    linarith
  omega

/-- The rendered figures jointly denote the clamped input rounded to the
nearest millisecond (ties up):
`3600000·hours + 60000·minutes + milliseconds = ⌊1000·max(0,q) + 1/2⌋`. -/
theorem timestamp_denotation (q : ℚ) :
    hoursVal q * 3600000 + minutesVal q * 60000 + milliVal q
      = (Rat.floor (jsMax 0 q * 1000 + 1 / 2)).toNat := by
  unfold hoursVal minutesVal milliVal
  rw [ratFloor_eq_intFloor, ratFloor_eq_intFloor, ratFloor_eq_intFloor,
    ratFloor_eq_intFloor]
  set s := jsMax 0 q with hsdef
  have hs : 0 ≤ s := by
    rw [hsdef, jsMax_eq_max]
    exact le_max_left 0 q
  have qmod_def' : ∀ a b : ℚ, qmod a b = a - b * (⌊a / b⌋ : ℤ) := by
    intro a b
    unfold qmod
    rw [ratFloor_eq_intFloor]
  set H := ⌊s / 3600⌋ with hH
  set M := ⌊qmod s 3600 / 60⌋ with hM
  have hr1 : qmod s 3600 = s - 3600 * H := by
    rw [qmod_def' s 3600, ← hH]
  have hr2 : qmod s 60 = qmod s 3600 - 60 * M := by
    rw [← qmod_qmod_3600_60 s, qmod_def' (qmod s 3600) 60, ← hM]
  have hkey : s * 1000 + 1 / 2 =
      (qmod s 60 * 1000 + 1 / 2) + ((3600000 * H + 60000 * M : ℤ) : ℚ) := by
    rw [hr2, hr1]
    push_cast
    ring
  have hfloor : ⌊s * 1000 + 1 / 2⌋ =
      ⌊qmod s 60 * 1000 + 1 / 2⌋ + (3600000 * H + 60000 * M) := by
    rw [hkey, Int.floor_add_int]
  have hH0 : 0 ≤ H := by
    rw [hH]
    apply Int.le_floor.mpr
    push_cast
    positivity
  have hM0 : 0 ≤ M := by
    rw [hM]
    apply Int.le_floor.mpr
    have := qmod_nonneg s 3600 (by norm_num)
    push_cast
    positivity
  have hK0 : 0 ≤ ⌊qmod s 60 * 1000 + 1 / 2⌋ := by
    apply Int.le_floor.mpr
    have := qmod_nonneg s 60 (by norm_num)
    push_cast
    linarith
  omega

/-- The format asserted by the claim: exactly `HH:MM:SS.mmm` with
two-digit fields throughout, minutes < 60 and seconds < 60. -/
def claimedTimestampShape (s : String) : Bool :=
  match s.data with
  | [h1, h2, c1, m1, m2, c2, s1, s2, d, t1, t2, t3] =>
    h1.isDigit && h2.isDigit && c1 == ':' && m1.isDigit && m2.isDigit &&
    c2 == ':' && s1.isDigit && s2.isDigit && d == '.' && t1.isDigit &&
    t2.isDigit && t3.isDigit &&
    decide (10 * (m1.toNat - 48) + (m2.toNat - 48) < 60) &&
    decide (10 * (s1.toNat - 48) + (s2.toNat - 48) < 60)
  | _ => false

/-- C9 counterexample: at 362399.9999 seconds the code emits
"100:39:60.000" — three-digit hours and a seconds field of value 60
(the millisecond rounding carries 59.9999 up to 60.000) — which is not
of the claimed shape. -/
theorem C9_counterexample :
    timestampFromSeconds (3623999999 / 10000 : ℚ) = "100:39:60.000" ∧
    claimedTimestampShape
      (timestampFromSeconds (3623999999 / 10000 : ℚ)) = false := by
  constructor
  · decide
  · decide

/-- C9 (amended): `timestampFromSeconds` clamps its input to ≥ 0 (every
negative input yields "00:00:00.000") and emits
`hours:minutes:seconds.milliseconds` where the hours figure is padded to
at least two digits (not truncated), the minutes figure is < 60, the
seconds field holds at most 60000 milliseconds (rounding to the nearest
millisecond can produce exactly "60.000"), and the figures jointly denote
the clamped input rounded to the nearest millisecond. -/
theorem C9_timestampFromSeconds_amended (q : ℚ) :
    timestampFromSeconds q =
      padLeft (natToDec (hoursVal q)) 2 '0' ++ ":" ++
      padLeft (natToDec (minutesVal q)) 2 '0' ++ ":" ++
      padLeft (natToDec (milliVal q / 1000) ++ "." ++
        padLeft (natToDec (milliVal q % 1000)) 3 '0') 6 '0' ∧
    timestampFromSeconds q = timestampFromSeconds (jsMax 0 q) ∧
    (q < 0 → timestampFromSeconds q = "00:00:00.000") ∧
    minutesVal q < 60 ∧
    milliVal q ≤ 60000 ∧
    hoursVal q * 3600000 + minutesVal q * 60000 + milliVal q
      = (Rat.floor (jsMax 0 q * 1000 + 1 / 2)).toNat := by
  have hclamp : jsMax 0 (jsMax 0 q) = jsMax 0 q := by
    rw [jsMax_eq_max, jsMax_eq_max, ← max_assoc, max_self]
  refine ⟨rfl, ?_, ?_, minutesVal_lt q, milliVal_le q,
    timestamp_denotation q⟩
  · unfold timestampFromSeconds
    rw [hclamp]
  · intro hq
    have h0 : jsMax 0 q = 0 := by
      unfold jsMax
      rw [if_neg (by linarith)]
    unfold timestampFromSeconds
    rw [h0]
    decide

/-- C10: `findAvailableOutputPath` is a pure function of the probed
filesystem state (two calls against the same state agree), its result
does not exist in that state, and after a file is created at the
returned path a further call returns a different path, obtained by
appending a numeric suffix `_i` with `i ≥ 1`. -/
theorem C10_findAvailableOutputPath_idempotent (fs : FS) (p : String) :
    findAvailableOutputPath fs p = findAvailableOutputPath fs p ∧
    existsF fs (findAvailableOutputPath fs p) = false ∧
    ∀ v : Nat,
      findAvailableOutputPath (writeF fs (findAvailableOutputPath fs p) v) p
        ≠ findAvailableOutputPath fs p ∧
      ∃ i, 1 ≤ i ∧
        findAvailableOutputPath
          (writeF fs (findAvailableOutputPath fs p) v) p
          = numberedCandidate p i := by
  refine ⟨rfl, findAvailableOutputPath_free fs p, ?_⟩
  intro v
  have hfree := findAvailableOutputPath_free fs p
  have hfree' := findAvailableOutputPath_free
    (writeF fs (findAvailableOutputPath fs p) v) p
  have hr_in : existsF (writeF fs (findAvailableOutputPath fs p) v)
      (findAvailableOutputPath fs p) = true := by
    unfold existsF
    rw [readF_writeF_same]
    rfl
  have hp_in : existsF (writeF fs (findAvailableOutputPath fs p) v) p
      = true := by
    by_cases hpf : existsF fs p = true
    · by_cases hpr : p = findAvailableOutputPath fs p
      · rw [← hpr] at hr_in ⊢
        exact hr_in
      · unfold existsF
        rw [readF_writeF_other _ _ _ _ hpr]
        exact hpf
    · have hrp : findAvailableOutputPath fs p = p := by
        have hpf' : existsF fs (candidateAt p 0) = false := by
          show existsF fs p = false
          revert hpf
          cases existsF fs p <;> simp
        show searchFree fs p 0 (fs.length + 1 + 1) = p
        unfold searchFree
        rw [hpf']
        simp [candidateAt]
      rw [hrp] at hr_in ⊢
      exact hr_in
  constructor
  · exact Ne.symm (ne_of_exists_fresh _ _ _ hr_in hfree')
  · obtain ⟨j, _, hj⟩ := searchFree_shape
      (writeF fs (findAvailableOutputPath fs p) v) p
      ((writeF fs (findAvailableOutputPath fs p) v).length + 2) 0
    have hj' : findAvailableOutputPath
        (writeF fs (findAvailableOutputPath fs p) v) p = candidateAt p j :=
      hj
    cases j with
    | zero =>
      exfalso
      rw [hj', show candidateAt p 0 = p from rfl] at hfree'
      rw [hfree'] at hp_in
      cases hp_in
    | succ k =>
      refine ⟨k + 1, by omega, ?_⟩
      rw [hj']
      rfl

/-- C8: a probe result parsed from the tool's JSON payload has a
nonnegative duration whenever the tool reports a nonnegative duration
value, defaulting to 0 when the duration field (or the format section)
is absent; width and height come from the first stream whose type is
"video" (0 for a missing field), and are 0 when no such stream exists. -/
theorem C8_probeResultOfPayload_fields (pp : ProbePayload)
    (hd : ∀ d, pp.format.bind (fun f => f.duration) = some d → 0 ≤ d) :
    0 ≤ (probeResultOfPayload pp).durationSeconds ∧
    (pp.format.bind (fun f => f.duration) = none →
      (probeResultOfPayload pp).durationSeconds = 0) ∧
    (∀ s, firstVideoStream pp = some s →
      (probeResultOfPayload pp).width = s.width.getD 0 ∧
      (probeResultOfPayload pp).height = s.height.getD 0) ∧
    (firstVideoStream pp = none →
      (probeResultOfPayload pp).width = 0 ∧
      (probeResultOfPayload pp).height = 0) := by
  refine ⟨?_, ?_, ?_, ?_⟩
  · rcases h : pp.format.bind (fun f => f.duration) with _ | d
    · simp [probeResultOfPayload, h]
    · have := hd d h
      simp [probeResultOfPayload, h]
      exact this
  · intro h
    simp [probeResultOfPayload, h]
  · intro s h
    constructor <;> simp [probeResultOfPayload, h]
  · intro h
    constructor <;> simp [probeResultOfPayload, h]

/-- The video stream of the sample payload below. -/
def sampleVideoStream : StreamInfo :=
  { codec_type := some "video", width := some 640, height := some 480 }

/-- A payload as the probing tool emits for a normal video file. -/
def samplePayload : ProbePayload :=
  { format := some { duration := some (5 : ℚ), format_name := some "mp4" }
    streams := some
      [{ codec_type := some "audio", width := none, height := none },
       sampleVideoStream] }

/-- C8 witness: the field characterisation applied to a concrete
payload. -/
theorem C8_witness :
    0 ≤ (probeResultOfPayload samplePayload).durationSeconds ∧
    (probeResultOfPayload samplePayload).width =
      sampleVideoStream.width.getD 0 := by
  have h := C8_probeResultOfPayload_fields samplePayload
    (by intro d hd; cases hd; decide)
  exact ⟨h.1, (h.2.2.1 sampleVideoStream (by rfl)).1⟩

/-- The progress-timestamp values parsed from the diagnostic chunks of
one run. -/
def chunkTimes (o : ExecOutcome) : List ℚ :=
  match o with
  | .spawnErr _ => []
  | .finished _ chunks _ => chunks.filterMap parseProgressSeconds

/-- Whether the run finished with exit status 0. -/
def isCleanExit (o : ExecOutcome) : Bool :=
  match o with
  | .spawnErr _ => false
  | .finished code _ _ => code == 0

theorem progressOf_nonneg (req : TrimRequest) (t : ℚ) :
    0 ≤ progressOf req t := by
  unfold progressOf
  rw [jsMax_eq_max]
  exact le_max_left 0 _

theorem progressOf_le_one (req : TrimRequest) (t : ℚ) :
    progressOf req t ≤ 1 := by
  unfold progressOf
  rw [jsMax_eq_max, jsMin_eq_min]
  exact max_le (by norm_num) (min_le_left 1 _)

theorem totalDurationOf_pos (req : TrimRequest) : 0 < totalDurationOf req := by
  unfold totalDurationOf
  rw [jsMax_eq_max]
  calc (0 : ℚ) < 1 / 1000 := by norm_num
    _ ≤ _ := le_max_left _ _

theorem progressOf_mono (req : TrimRequest) (a b : ℚ) (h : a ≤ b) :
    progressOf req a ≤ progressOf req b := by
  unfold progressOf
  rw [jsMax_eq_max, jsMax_eq_max, jsMin_eq_min, jsMin_eq_min]
  have hdiv : a / totalDurationOf req ≤ b / totalDurationOf req :=
    (div_le_div_iff_of_pos_right (totalDurationOf_pos req)).mpr h
  exact max_le_max (le_refl 0) (min_le_min (le_refl 1) hdiv)

/-- C5: within one executor invocation — clean exit or not — every
reported progress value is the clamp of elapsed-over-duration into
[0,1]; when the parsed elapsed values coming from the tool are
nondecreasing the reported values are nondecreasing; and on clean exit
the final report is exactly 1. -/
theorem C5_progress_monotone (env : Env) (fs : FS) (req : TrimRequest)
    (mode : Mode)
    (hmono : List.Chain' (fun a b => a ≤ b) (chunkTimes (env.exec mode))) :
    (∀ r ∈ (trimWithMode env fs req mode).progress, 0 ≤ r ∧ r ≤ 1) ∧
    List.Chain' (fun a b => a ≤ b)
      (trimWithMode env fs req mode).progress ∧
    (isCleanExit (env.exec mode) = true →
      (trimWithMode env fs req mode).progress.getLast? = some 1) := by
  rcases ho : env.exec mode with e | ⟨code, chunks, w⟩
  · have hprog : (trimWithMode env fs req mode).progress = [] := by
      unfold trimWithMode execProgress
      rw [ho]
    refine ⟨?_, ?_, ?_⟩
    · intro r hr
      rw [hprog] at hr
      cases hr
    · rw [hprog]
      exact List.chain'_nil
    · intro hexit
      simp [isCleanExit] at hexit
  · rw [ho] at hmono
    unfold chunkTimes at hmono
    have hbounds : ∀ r ∈ (chunks.filterMap parseProgressSeconds).map
        (progressOf req), 0 ≤ r ∧ r ≤ 1 := by
      intro r hr
      rcases List.mem_map.mp hr with ⟨t, _, rfl⟩
      exact ⟨progressOf_nonneg req t, progressOf_le_one req t⟩
    have hchain : List.Chain' (fun a b => a ≤ b)
        ((chunks.filterMap parseProgressSeconds).map (progressOf req)) := by
      rw [List.chain'_map]
      exact hmono.imp (fun a b hab => progressOf_mono req a b hab)
    by_cases hc : code = 0
    · subst hc
      have hprog : (trimWithMode env fs req mode).progress =
          ((chunks.filterMap parseProgressSeconds).map (progressOf req))
            ++ [1] := by
        unfold trimWithMode execProgress
        rw [ho]
        simp
      rw [hprog]
      refine ⟨?_, ?_, fun _ => List.getLast?_concat _⟩
      · intro r hr
        rcases List.mem_append.mp hr with hr | hr
        · exact hbounds r hr
        · simp only [List.mem_singleton] at hr
          subst hr
          norm_num
      · apply List.Chain'.append hchain (List.chain'_singleton 1)
        intro x hx y hy
        simp only [List.head?_cons, Option.mem_def, Option.some.injEq] at hy
        subst hy
        have hxmem : x ∈ (chunks.filterMap parseProgressSeconds).map
            (progressOf req) := by
          rcases hg : ((chunks.filterMap parseProgressSeconds).map
              (progressOf req)).getLast? with _ | z
          · rw [hg] at hx
            cases hx
          · rw [hg] at hx
            simp only [Option.mem_def, Option.some.injEq] at hx
            subst hx
            exact List.mem_of_getLast?_eq_some hg
        rcases List.mem_map.mp hxmem with ⟨t, _, rfl⟩
        exact progressOf_le_one req t
    · have hprog : (trimWithMode env fs req mode).progress =
          (chunks.filterMap parseProgressSeconds).map (progressOf req) := by
        unfold trimWithMode execProgress
        rw [ho]
        simp [hc]
      rw [hprog]
      refine ⟨hbounds, hchain, ?_⟩
      intro hexit
      unfold isCleanExit at hexit
      exact absurd (eq_of_beq hexit) hc

/-- A run with one progress line and a clean exit. -/
def sampleRunEnv : Env :=
  { exec := fun _ => .finished 0 ["time=00:00:01"] (some 9)
    writable := fun _ => true }

/-- A request for the sample run. -/
def sampleTrimRequest : TrimRequest :=
  { jobId := "J", inputPath := "d/a.mp4", outputPath := "d/o.mp4",
    startSeconds := 0, endSeconds := 2, mode := .copy }

/-- A run that fails (exit status 1) after reporting one progress
line. -/
def failingRunEnv : Env :=
  { exec := fun _ => .finished 1 ["time=00:00:01", "boom"] none
    writable := fun _ => true }

/-- C5 witness: the progress contract applied to a concrete clean run
(final report 1) and to a concrete failing run (reports still
monotone). -/
theorem C5_witness :
    (trimWithMode sampleRunEnv [] sampleTrimRequest
      Mode.copy).progress.getLast? = some 1 ∧
    List.Chain' (fun a b => a ≤ b)
      (trimWithMode failingRunEnv [] sampleTrimRequest
        Mode.copy).progress :=
  ⟨(C5_progress_monotone sampleRunEnv [] sampleTrimRequest Mode.copy
      (List.chain'_singleton _)).2.2 rfl,
   (C5_progress_monotone failingRunEnv [] sampleTrimRequest Mode.copy
      (List.chain'_singleton _)).2.1⟩

/-- Whether a run failed with a nonzero exit status (the outcome the
smart mode falls back on; a spawn failure is a rejection instead). -/
def execFailed (o : ExecOutcome) : Bool :=
  match o with
  | .spawnErr _ => false
  | .finished code _ _ => !(code == 0)

/-- Whether the oracle would let the process spawn at all. -/
def notSpawnErr (o : ExecOutcome) : Bool :=
  match o with
  | .spawnErr _ => false
  | .finished _ _ _ => true

/-- C4: under `smart` mode the selector runs the copy strategy first and
re-runs the re-encode strategy exactly when the copy attempt settles
with `ok = false`, returning the re-encode attempt's result (even if it
also failed, the copy attempt's error discarded); a request whose copy
attempt fails yields `ok = false, usedMode = copy` under `copy` mode but
a `usedMode = reencode` result under `smart` mode. -/
theorem C4_smart_fallback (env : Env) (fs : FS)
    (jobId inputPath outputPath : String) (a b : ℚ)
    (hrange : ¬(a < 0 ∨ b ≤ a))
    (hvalid : validateInputVideo fs inputPath = none)
    (hw : env.writable (pathDir outputPath) = true)
    (hre : notSpawnErr (env.exec Mode.reencode) = true) :
    ((trimVideo env fs
        ⟨jobId, inputPath, outputPath, a, b, ReqMode.smart⟩).result =
      match execResult ⟨jobId, inputPath, outputPath, a, b, ReqMode.smart⟩
          Mode.copy (env.exec Mode.copy) with
      | .error e => .error e
      | .ok t =>
        if t.ok then .ok t
        else execResult ⟨jobId, inputPath, outputPath, a, b, ReqMode.smart⟩
          Mode.reencode (env.exec Mode.reencode)) ∧
    (execFailed (env.exec Mode.copy) = true →
      ∃ tc, (trimVideo env fs
          ⟨jobId, inputPath, outputPath, a, b, ReqMode.copy⟩).result =
        .ok tc ∧ tc.ok = false ∧ tc.usedMode = Mode.copy) ∧
    (execFailed (env.exec Mode.copy) = true →
      ∃ t2, (trimVideo env fs
          ⟨jobId, inputPath, outputPath, a, b, ReqMode.smart⟩).result =
        .ok t2 ∧ t2.usedMode = Mode.reencode) := by
  have hsmart : (trimVideo env fs
      ⟨jobId, inputPath, outputPath, a, b, ReqMode.smart⟩).result =
      match execResult ⟨jobId, inputPath, outputPath, a, b, ReqMode.smart⟩
          Mode.copy (env.exec Mode.copy) with
      | .error e => .error e
      | .ok t =>
        if t.ok then .ok t
        else execResult ⟨jobId, inputPath, outputPath, a, b, ReqMode.smart⟩
          Mode.reencode (env.exec Mode.reencode) := by
    unfold trimVideo
    rw [if_neg hrange, hvalid, hw]
    simp only [not_true, if_false, Bool.false_eq_true]
    rcases ho : env.exec Mode.copy with e | ⟨code, chunks, w⟩
    · simp [trimWithMode, execResult, ho]
    · by_cases hc : code = 0
      · simp [trimWithMode, execResult, ho, hc]
      · simp [trimWithMode, execResult, ho, hc]
  refine ⟨hsmart, ?_, ?_⟩
  · intro hfail
    rcases ho : env.exec Mode.copy with e | ⟨code, chunks, w⟩
    · rw [ho] at hfail
      cases hfail
    · have hcode : ¬ code = 0 := by
        rw [ho] at hfail
        unfold execFailed at hfail
        simp only [Bool.not_eq_true'] at hfail
        intro hcon
        rw [hcon] at hfail
        cases hfail
      refine ⟨⟨false, outputPath, Mode.copy, some (trimErrorMsg chunks)⟩,
        ?_, rfl, rfl⟩
      unfold trimVideo
      rw [if_neg hrange, hvalid, hw]
      simp only [not_true, if_false, Bool.false_eq_true]
      simp [trimWithMode, execResult, ho, hcode]
  · intro hfail
    rw [hsmart]
    rcases ho : env.exec Mode.copy with e | ⟨code, chunks, w⟩
    · rw [ho] at hfail
      cases hfail
    · have hcode : ¬ code = 0 := by
        rw [ho] at hfail
        unfold execFailed at hfail
        simp only [Bool.not_eq_true'] at hfail
        intro hcon
        rw [hcon] at hfail
        cases hfail
      rcases hor : env.exec Mode.reencode with e2 | ⟨code2, chunks2, w2⟩
      · rw [hor] at hre
        cases hre
      · by_cases hc2 : code2 = 0
        · refine ⟨⟨true, outputPath, Mode.reencode, none⟩, ?_, rfl⟩
          simp [execResult, hcode, hc2]
        · refine ⟨⟨false, outputPath, Mode.reencode,
            some (trimErrorMsg chunks2)⟩, ?_, rfl⟩
          simp [execResult, hcode, hc2]

/-- An environment whose copy run fails and whose re-encode run
succeeds. -/
def fallbackEnv : Env :=
  { exec := fun m =>
      match m with
      | .copy => .finished 1 ["boom"] none
      | .reencode => .finished 0 [] (some 9)
    writable := fun _ => true }

/-- A filesystem holding one supported input file. -/
def sampleFs : FS := [("d/a.mp4", 7)]

/-- C4 witness: the fallback contract applied to a concrete
environment in which the copy attempt fails. -/
theorem C4_witness :
    ∃ t2, (trimVideo fallbackEnv sampleFs
        ⟨"J", "d/a.mp4", "d/o.mp4", 0, 1, ReqMode.smart⟩).result =
      .ok t2 ∧ t2.usedMode = Mode.reencode :=
  (C4_smart_fallback fallbackEnv sampleFs "J" "d/a.mp4" "d/o.mp4" 0 1
    (by decide) (by decide) rfl rfl).2.2 rfl

/-! ## The overwrite coordinator claims -/

theorem validateInputVideo_none_inv (fs : FS) (p : String)
    (h : validateInputVideo fs p = none) :
    existsF fs p = true ∧ isSupportedVideo p = true := by
  unfold validateInputVideo at h
  split at h
  · cases h
  · split at h
    · cases h
    · rename_i h1 h2
      rw [not_not] at h1 h2
      exact ⟨h1, h2⟩

/-- `overwriteVideo` when the forwarded trim rejects. -/
theorem overwriteVideo_eq_trimErr (env : Env) (faults : FsFaults) (fs : FS)
    (req : OverwriteRequest) (e : String)
    (hv : validateInputVideo fs req.inputPath = none)
    (hw : env.writable (pathDir req.inputPath) = true)
    (htr : (trimVideo env fs (overwriteTrimReq fs req)).result = .error e) :
    overwriteVideo env faults fs req =
      (.error e, (trimVideo env fs (overwriteTrimReq fs req)).fs) := by
  unfold overwriteVideo
  rw [hv, hw]
  simp [htr]

/-- `overwriteVideo` when the forwarded trim settles with a failure
result: the early return of line 313. -/
theorem overwriteVideo_eq_trimFail (env : Env) (faults : FsFaults)
    (fs : FS) (req : OverwriteRequest) (t : TrimResult)
    (hv : validateInputVideo fs req.inputPath = none)
    (hw : env.writable (pathDir req.inputPath) = true)
    (htr : (trimVideo env fs (overwriteTrimReq fs req)).result = .ok t)
    (htok : t.ok = false) :
    overwriteVideo env faults fs req =
      (.ok t, (trimVideo env fs (overwriteTrimReq fs req)).fs) := by
  unfold overwriteVideo
  rw [hv, hw]
  simp [htr, htok]

/-- `overwriteVideo` when the forwarded trim succeeded: the swap runs. -/
theorem overwriteVideo_eq_swap (env : Env) (faults : FsFaults) (fs : FS)
    (req : OverwriteRequest) (t : TrimResult)
    (hv : validateInputVideo fs req.inputPath = none)
    (hw : env.writable (pathDir req.inputPath) = true)
    (htr : (trimVideo env fs (overwriteTrimReq fs req)).result = .ok t)
    (htok : t.ok = true) :
    overwriteVideo env faults fs req =
      overwriteSwap faults (trimVideo env fs (overwriteTrimReq fs req)).fs
        req.inputPath (tempPathOf fs req) (backupPathOf fs req) t := by
  unfold overwriteVideo
  rw [hv, hw]
  simp [htr, htok]

/-- The path facts every swap-stage claim needs: the input exists, the
derived temp and backup paths are fresh, and all three are pairwise
distinct. -/
theorem overwrite_path_facts (fs : FS) (req : OverwriteRequest)
    (hv : validateInputVideo fs req.inputPath = none) :
    existsF fs req.inputPath = true ∧
    existsF fs (tempPathOf fs req) = false ∧
    existsF fs (backupPathOf fs req) = false ∧
    req.inputPath ≠ tempPathOf fs req ∧
    req.inputPath ≠ backupPathOf fs req ∧
    tempPathOf fs req ≠ backupPathOf fs req := by
  obtain ⟨hex, hsup⟩ := validateInputVideo_none_inv fs _ hv
  have htf : existsF fs (tempPathOf fs req) = false :=
    findAvailableOutputPath_free fs _
  have hbf : existsF fs (backupPathOf fs req) = false :=
    findAvailableOutputPath_free fs _
  exact ⟨hex, htf, hbf, ne_of_exists_fresh fs _ _ hex htf,
    ne_of_exists_fresh fs _ _ hex hbf,
    tempPathOf_ne_backupPathOf fs req hsup⟩

/-- C3 (amended): when the trim-to-temp step settles with `ok = false`,
`overwriteVideo` returns that failure result unchanged and performed no
rename and created no backup; any filesystem mutation is confined to
the freshly derived temp output path (a failed run may leave a partial
file there) — every other path, the original file at `inputPath` and
any pre-existing `.bak` path included, reads exactly as before the
call, and the derived backup path stays absent. -/
theorem C3_trim_failure_mutation_confined (env : Env) (faults : FsFaults)
    (fs : FS) (req : OverwriteRequest) (r : TrimResult)
    (hr : (overwriteVideo env faults fs req).1 = .ok r)
    (hrok : r.ok = false) :
    (trimVideo env fs (overwriteTrimReq fs req)).result = .ok r ∧
    (overwriteVideo env faults fs req).2 =
      (trimVideo env fs (overwriteTrimReq fs req)).fs ∧
    (∀ p, p ≠ tempPathOf fs req →
      readF (overwriteVideo env faults fs req).2 p = readF fs p) ∧
    readF (overwriteVideo env faults fs req).2 req.inputPath =
      readF fs req.inputPath ∧
    existsF fs req.inputPath = true ∧
    existsF fs (tempPathOf fs req) = false ∧
    readF (overwriteVideo env faults fs req).2 (backupPathOf fs req)
      = none := by
  rcases hv : validateInputVideo fs req.inputPath with _ | e
  case some =>
    unfold overwriteVideo at hr
    rw [hv] at hr
    cases hr
  case none =>
  obtain ⟨hex, htf, hbf, hit, hib, htb⟩ := overwrite_path_facts fs req hv
  have hframe : ∀ p, p ≠ tempPathOf fs req →
      readF (trimVideo env fs (overwriteTrimReq fs req)).fs p =
        readF fs p := by
    intro p hp
    exact trimVideo_frame env fs (overwriteTrimReq fs req) p hp
  have hbnone : readF fs (backupPathOf fs req) = none := by
    rcases hb : readF fs (backupPathOf fs req) with _ | v
    · rfl
    · simp [existsF, hb] at hbf
  by_cases hw : env.writable (pathDir req.inputPath) = true
  · rcases htr : (trimVideo env fs (overwriteTrimReq fs req)).result
      with e | t
    · rw [overwriteVideo_eq_trimErr env faults fs req e hv hw htr] at hr
      cases hr
    · by_cases htok : t.ok = false
      · have heq := overwriteVideo_eq_trimFail env faults fs req t
          hv hw htr htok
        rw [heq] at hr ⊢
        have hrt : t = r := Except.ok.inj hr
        subst hrt
        refine ⟨rfl, rfl, hframe, hframe _ hit, hex, htf, ?_⟩
        show readF (trimVideo env fs (overwriteTrimReq fs req)).fs
          (backupPathOf fs req) = none
        rw [hframe _ (Ne.symm htb)]
        exact hbnone
      · have heq := overwriteVideo_eq_swap env faults fs req t hv hw htr
          (by revert htok; cases t.ok <;> simp)
        rw [heq] at hr
        exfalso
        have hinv := overwriteSwap_ok_inv _ _ _ _ _ _ _ hr
        have hok : r.ok = t.ok := by rw [hinv.1]
        rw [hrok] at hok
        exact htok hok.symm
  · unfold overwriteVideo at hr
    rw [hv, if_pos hw] at hr
    cases hr

/-- C2: when renaming the temp output onto the input path fails after
the original was renamed to the backup path, the engine restores the
original by renaming the backup back, removes the orphaned temp file,
and propagates the failure as a rejection; the final state has the
original content back at `inputPath` and neither temp nor backup file
on disk (provided the rollback operations themselves do not fault). -/
theorem C2_rename_back_rollback (env : Env) (faults : FsFaults) (fs : FS)
    (req : OverwriteRequest) (t : TrimResult)
    (hv : validateInputVideo fs req.inputPath = none)
    (hw : env.writable (pathDir req.inputPath) = true)
    (htr : (trimVideo env fs (overwriteTrimReq fs req)).result = .ok t)
    (htok : t.ok = true)
    (hf1 : faults.renameToBackup = false)
    (hf2 : faults.renameTempToInput = true)
    (hf4 : faults.renameRollback = false)
    (hf5 : faults.rmTemp = false) :
    (overwriteVideo env faults fs req).1 =
      .error "EPERM: rename temp to input" ∧
    readF (overwriteVideo env faults fs req).2 req.inputPath =
      readF fs req.inputPath ∧
    (readF (overwriteVideo env faults fs req).2 req.inputPath).isSome
      = true ∧
    readF (overwriteVideo env faults fs req).2 (tempPathOf fs req)
      = none ∧
    readF (overwriteVideo env faults fs req).2 (backupPathOf fs req)
      = none := by
  obtain ⟨hex, htf, hbf, hit, hib, htb⟩ := overwrite_path_facts fs req hv
  have heq := overwriteVideo_eq_swap env faults fs req t hv hw htr htok
  have hfr : readF (trimVideo env fs (overwriteTrimReq fs req)).fs
      req.inputPath = readF fs req.inputPath :=
    trimVideo_frame env fs _ _ hit
  rcases hval : readF fs req.inputPath with _ | v
  · rw [existsF, hval] at hex
    cases hex
  · have hv1 : readF (trimVideo env fs (overwriteTrimReq fs req)).fs
        req.inputPath = some v := by rw [hfr, hval]
    have htrace := overwriteSwap_rename2_fault faults
      (trimVideo env fs (overwriteTrimReq fs req)).fs req.inputPath
      (tempPathOf fs req) (backupPathOf fs req) t v hf1 hf2 hf4 hf5
      hv1 hit hib htb
    rw [heq]
    refine ⟨htrace.1, ?_, ?_, htrace.2.2.1, htrace.2.2.2⟩
    · rw [htrace.2.1]
    · rw [htrace.2.1]
      rfl

/-- C6 (amended): after both renames succeed, a failure to delete the
backup file is propagated as a rejection — not as `ok = true`: the catch
block sees the input path populated, performs no rollback, removes the
(already absent) temp path and rethrows.  The trimmed content is
nevertheless in place at `inputPath`, and the backup file remains on
disk. -/
theorem C6_rmBackup_failure_rejects (env : Env) (faults : FsFaults)
    (fs : FS) (req : OverwriteRequest) (t : TrimResult) (w : Nat)
    (hv : validateInputVideo fs req.inputPath = none)
    (hw : env.writable (pathDir req.inputPath) = true)
    (htr : (trimVideo env fs (overwriteTrimReq fs req)).result = .ok t)
    (htok : t.ok = true)
    (hwtemp : readF (trimVideo env fs (overwriteTrimReq fs req)).fs
      (tempPathOf fs req) = some w)
    (hf1 : faults.renameToBackup = false)
    (hf2 : faults.renameTempToInput = false)
    (hf3 : faults.rmBackup = true)
    (hf5 : faults.rmTemp = false) :
    (overwriteVideo env faults fs req).1 = .error "EPERM: rm backup" ∧
    readF (overwriteVideo env faults fs req).2 req.inputPath = some w ∧
    readF (overwriteVideo env faults fs req).2 (tempPathOf fs req)
      = none ∧
    readF (overwriteVideo env faults fs req).2 (backupPathOf fs req)
      = readF fs req.inputPath := by
  obtain ⟨hex, htf, hbf, hit, hib, htb⟩ := overwrite_path_facts fs req hv
  have heq := overwriteVideo_eq_swap env faults fs req t hv hw htr htok
  have hfr : readF (trimVideo env fs (overwriteTrimReq fs req)).fs
      req.inputPath = readF fs req.inputPath :=
    trimVideo_frame env fs _ _ hit
  rcases hval : readF fs req.inputPath with _ | v
  · rw [existsF, hval] at hex
    cases hex
  · have hv1 : readF (trimVideo env fs (overwriteTrimReq fs req)).fs
        req.inputPath = some v := by rw [hfr, hval]
    have htrace := overwriteSwap_rmBackup_fault faults
      (trimVideo env fs (overwriteTrimReq fs req)).fs req.inputPath
      (tempPathOf fs req) (backupPathOf fs req) t v w hf1 hf2 hf3 hf5
      hv1 hwtemp hit hib htb
    rw [heq]
    refine ⟨htrace.1, htrace.2.1, htrace.2.2.1, ?_⟩
    rw [htrace.2.2.2]

/-- C1: a call of `overwriteVideo` that settles with `ok = true` took
the full clean path: the returned `outputPath` is the original
`inputPath`, the file at `inputPath` now holds exactly the content the
trim step left at the derived temp path, and neither the temp file nor
the backup file remains on disk. -/
theorem C1_overwrite_success (env : Env) (faults : FsFaults) (fs : FS)
    (req : OverwriteRequest) (r : TrimResult)
    (hr : (overwriteVideo env faults fs req).1 = .ok r)
    (hrok : r.ok = true) :
    r.outputPath = req.inputPath ∧
    (readF (overwriteVideo env faults fs req).2 req.inputPath).isSome
      = true ∧
    readF (overwriteVideo env faults fs req).2 req.inputPath =
      readF (trimVideo env fs (overwriteTrimReq fs req)).fs
        (tempPathOf fs req) ∧
    readF (overwriteVideo env faults fs req).2 (tempPathOf fs req)
      = none ∧
    readF (overwriteVideo env faults fs req).2 (backupPathOf fs req)
      = none := by
  rcases hv : validateInputVideo fs req.inputPath with _ | e
  case some =>
    unfold overwriteVideo at hr
    rw [hv] at hr
    cases hr
  case none =>
  by_cases hw : env.writable (pathDir req.inputPath) = true
  · obtain ⟨hex, htf, hbf, hit, hib, htb⟩ := overwrite_path_facts fs req hv
    rcases htr : (trimVideo env fs (overwriteTrimReq fs req)).result
      with e | t
    · rw [overwriteVideo_eq_trimErr env faults fs req e hv hw htr] at hr
      cases hr
    · by_cases htok : t.ok = false
      · rw [overwriteVideo_eq_trimFail env faults fs req t hv hw htr
          htok] at hr
        have hrt : t = r := Except.ok.inj hr
        rw [hrt, hrok] at htok
        exact absurd htok (by decide)
      · have htok' : t.ok = true := by
          revert htok
          cases t.ok <;> simp
        have heq := overwriteVideo_eq_swap env faults fs req t hv hw htr
          htok'
        rw [heq] at hr ⊢
        obtain ⟨hrt, v, w, hv1, hw1, hfs⟩ :=
          overwriteSwap_ok_inv _ _ _ _ _ _ _ hr
        have hw1' : readF (trimVideo env fs (overwriteTrimReq fs req)).fs
            (tempPathOf fs req) = some w := by
          rw [← hw1, readF_writeF_other _ _ _ _ htb,
            readF_removeF_other _ _ _ (Ne.symm hit)]
        refine ⟨by rw [hrt], ?_, ?_, ?_, ?_⟩
        · rw [hfs, readF_removeF_other _ _ _ hib, readF_writeF_same]
          rfl
        · rw [hfs, readF_removeF_other _ _ _ hib, readF_writeF_same, hw1']
        · rw [hfs, readF_removeF_other _ _ _ htb,
            readF_writeF_other _ _ _ _ (Ne.symm hit), readF_removeF_same]
        · rw [hfs, readF_removeF_same]
  · unfold overwriteVideo at hr
    rw [hv, if_pos hw] at hr
    cases hr

/-- C7: whatever the outcome (success, structured failure or rejection),
`overwriteVideo` only ever touches the input path and the two derived
paths, both of which are collision-resolved to paths free on disk before
any write; every pre-existing file at any other path — a pre-existing
`<inputPath>.bak` included — is left with unchanged content. -/
theorem C7_overwrite_frame (env : Env) (faults : FsFaults) (fs : FS)
    (req : OverwriteRequest) :
    existsF fs (tempPathOf fs req) = false ∧
    existsF fs (backupPathOf fs req) = false ∧
    (∀ p, p ≠ req.inputPath → p ≠ tempPathOf fs req →
      p ≠ backupPathOf fs req →
      readF (overwriteVideo env faults fs req).2 p = readF fs p) ∧
    (∀ p, p ≠ req.inputPath → (readF fs p).isSome = true →
      readF (overwriteVideo env faults fs req).2 p = readF fs p) := by
  have htf : existsF fs (tempPathOf fs req) = false :=
    findAvailableOutputPath_free fs _
  have hbf : existsF fs (backupPathOf fs req) = false :=
    findAvailableOutputPath_free fs _
  have hframe : ∀ p, p ≠ req.inputPath → p ≠ tempPathOf fs req →
      p ≠ backupPathOf fs req →
      readF (overwriteVideo env faults fs req).2 p = readF fs p := by
    intro p hpi hpt hpb
    have htrim : readF (trimVideo env fs (overwriteTrimReq fs req)).fs p =
        readF fs p := trimVideo_frame env fs _ _ hpt
    rcases hv : validateInputVideo fs req.inputPath with _ | e
    case some =>
      unfold overwriteVideo
      rw [hv]
    case none =>
    by_cases hw : env.writable (pathDir req.inputPath) = true
    · rcases htr : (trimVideo env fs (overwriteTrimReq fs req)).result
        with e | t
      · rw [overwriteVideo_eq_trimErr env faults fs req e hv hw htr]
        exact htrim
      · by_cases htok : t.ok = false
        · rw [overwriteVideo_eq_trimFail env faults fs req t hv hw htr
            htok]
          exact htrim
        · have htok' : t.ok = true := by
            revert htok
            cases t.ok <;> simp
          rw [overwriteVideo_eq_swap env faults fs req t hv hw htr htok']
          rw [overwriteSwap_frame _ _ _ _ _ _ _ hpi hpt hpb]
          exact htrim
    · unfold overwriteVideo
      rw [hv, if_pos hw]
  refine ⟨htf, hbf, hframe, ?_⟩
  intro p hpi hsome
  have hpt : p ≠ tempPathOf fs req := by
    intro hcon
    rw [hcon] at hsome
    rw [existsF] at htf
    rw [htf] at hsome
    cases hsome
  have hpb : p ≠ backupPathOf fs req := by
    intro hcon
    rw [hcon] at hsome
    rw [existsF] at hbf
    rw [hbf] at hsome
    cases hsome
  exact hframe p hpi hpt hpb

/-! Concrete runs for the overwrite claims. -/

/-- An environment whose runs finish cleanly, write content 9 at the
output path and report one progress line. -/
def overwriteEnv : Env :=
  { exec := fun _ => .finished 0 ["time=00:00:00.50"] (some 9)
    writable := fun _ => true }

/-- An environment whose runs fail with stderr "boom" and leave no
partial output. -/
def failingEnv : Env :=
  { exec := fun _ => .finished 1 ["boom"] none
    writable := fun _ => true }

def noFaults : FsFaults := ⟨false, false, false, false, false⟩

def rename2Faults : FsFaults := ⟨false, true, false, false, false⟩

def rmBackupFaults : FsFaults := ⟨false, false, true, false, false⟩

def sampleOverwriteReq : OverwriteRequest :=
  ⟨"J", "d/a.mp4", 0, 1, ReqMode.copy⟩

/-- C1 witness: the success invariant applied to a concrete clean run. -/
theorem C1_witness :
    (readF (overwriteVideo overwriteEnv noFaults sampleFs
      sampleOverwriteReq).2 sampleOverwriteReq.inputPath).isSome = true :=
  (C1_overwrite_success overwriteEnv noFaults sampleFs sampleOverwriteReq
    ⟨true, "d/a.mp4", Mode.copy, none⟩ rfl rfl).2.1

/-- C2 witness: the rollback contract applied to a concrete run whose
second rename faults. -/
theorem C2_witness :
    (overwriteVideo overwriteEnv rename2Faults sampleFs
      sampleOverwriteReq).1 = Except.error "EPERM: rename temp to input" :=
  (C2_rename_back_rollback overwriteEnv rename2Faults sampleFs
    sampleOverwriteReq ⟨true, "d/a.trim-J.mp4", Mode.copy, none⟩
    rfl rfl rfl rfl rfl rfl rfl rfl).1

/-- A run that fails (exit status 1) after writing a partial file at
its output path. -/
def partialFailEnv : Env :=
  { exec := fun _ => .finished 1 ["boom"] (some 5)
    writable := fun _ => true }

/-- C3 counterexample: a concrete run whose trim-to-temp step settles
with `ok = false` after the tool wrote a partial file at the temp path.
The failure result is returned, but the filesystem HAS mutated — a
partial file now exists at the temp path where there was none — so the
claim's no-filesystem-mutation conjunct is false. -/
theorem C3_counterexample :
    (overwriteVideo partialFailEnv noFaults sampleFs
      sampleOverwriteReq).1 =
      .ok { ok := false, outputPath := "d/a.trim-J.mp4",
            usedMode := Mode.copy, error := some "boom" } ∧
    readF (overwriteVideo partialFailEnv noFaults sampleFs
      sampleOverwriteReq).2 "d/a.trim-J.mp4" = some 5 ∧
    readF sampleFs "d/a.trim-J.mp4" = none :=
  ⟨rfl, rfl, rfl⟩

/-- C3 witness: the amended confinement contract applied to the same
concrete failing run — the input file is untouched and no backup
appeared. -/
theorem C3_witness :
    readF (overwriteVideo partialFailEnv noFaults sampleFs
      sampleOverwriteReq).2 sampleOverwriteReq.inputPath =
      readF sampleFs sampleOverwriteReq.inputPath ∧
    readF (overwriteVideo partialFailEnv noFaults sampleFs
      sampleOverwriteReq).2 (backupPathOf sampleFs sampleOverwriteReq)
      = none :=
  ⟨(C3_trim_failure_mutation_confined partialFailEnv noFaults sampleFs
      sampleOverwriteReq ⟨false, "d/a.trim-J.mp4", Mode.copy, some "boom"⟩
      rfl rfl).2.2.2.1,
   (C3_trim_failure_mutation_confined partialFailEnv noFaults sampleFs
      sampleOverwriteReq ⟨false, "d/a.trim-J.mp4", Mode.copy, some "boom"⟩
      rfl rfl).2.2.2.2.2.2⟩

/-- C6 counterexample: a concrete run in which deleting the backup
faults after both renames succeeded settles with a rejection — not with
the `ok = true` result the claim asserts. -/
theorem C6_counterexample :
    (overwriteVideo overwriteEnv rmBackupFaults sampleFs
      sampleOverwriteReq).1 = Except.error "EPERM: rm backup" := rfl

/-- C6 witness: the amended contract applied to the same concrete run
(the trimmed content is in place at the input path despite the
rejection). -/
theorem C6_witness :
    readF (overwriteVideo overwriteEnv rmBackupFaults sampleFs
      sampleOverwriteReq).2 sampleOverwriteReq.inputPath = some 9 :=
  (C6_rmBackup_failure_rejects overwriteEnv rmBackupFaults sampleFs
    sampleOverwriteReq ⟨true, "d/a.trim-J.mp4", Mode.copy, none⟩ 9
    rfl rfl rfl rfl rfl rfl rfl rfl rfl).2.1

end Trim
